import Mathlib

/-!
# Verification of the palimpsest `Dictionary` core

A shallow embedding of the palimpsest dictionary (`src/include/palimpsest/Dictionary.h`,
`src/src/Dictionary.cpp`, `src/include/palimpsest/Value.h`,
`src/include/palimpsest/mpack/read.h`) together with models of the external
collaborators the source uses (the mpack MessagePack library and the
`palimpsest/mpack/write.h` / `Writer.h` serialization helpers, which are not part of
the sources but are described by the specification).

Conventions:
* C++ `std::string` is a byte string; we model it as `List Nat` with bytes `< 256`.
* `float` / `double` values are carried as their IEEE-754 bit patterns (a `Nat`
  below `2^32` / `2^64`); serialization and deserialization only move those bit
  patterns around, so this representation is exact.
* Machine integers are `Int` / `Nat` with the C++ range invariants stated as
  explicit well-formedness predicates where theorems need them.
* Fallible operations return `Except Err _`; a thrown C++ exception is `.error`.
-/

set_option maxRecDepth 8192

namespace Palimpsest

/-- Byte strings: the model of `std::string` and of raw buffers. -/
abbrev Str := List Nat

/-- Exceptions of the library (`palimpsest/exceptions/*.h`, used but not defined in
the sources): `KeyError`, `TypeError`, and the base `PalimpsestError` with its
message. Messages attached to `TypeError`/`KeyError` are not modelled. -/
inductive Err where
  | keyError : Err
  | typeError : Err
  | palimpsestError (msg : String) : Err
deriving DecidableEq

/-- The mpack parse tree node (`mpack_node_t` contents): one MessagePack value.
Map entries keep both the key node and the value node, as mpack does; `float`
and `double` carry IEEE-754 bit patterns. -/
inductive WireNode where
  | nil : WireNode
  | bool (b : Bool) : WireNode
  | int (i : Int) : WireNode
  | uint (n : Nat) : WireNode
  | float (bits : Nat) : WireNode
  | double (bits : Nat) : WireNode
  | str (s : Str) : WireNode
  | bin (s : Str) : WireNode
  | arr (items : List WireNode) : WireNode
  | map (entries : List (WireNode × WireNode)) : WireNode

/-! ## MessagePack byte encoding

Model of the byte stream produced by `mpack::Writer` / `mpack::write<T>`
(`palimpsest/mpack/Writer.h` and `write.h`, not part of the sources).
Modelled from the spec: one self-describing MessagePack message per tree, maps
length-prefixed, and the writer emits each value in the most compact MessagePack
encoding, as the mpack writer does. -/

/-- `k` bytes of `n`, big-endian (most significant byte first). -/
def beBytes : Nat → Nat → List Nat
  | 0, _ => []
  | k + 1, n => (n / 256 ^ k) :: beBytes k (n % 256 ^ k)

/-- Compact MessagePack encoding of a non-negative integer. -/
def encUint (n : Nat) : List Nat :=
  if n < 128 then [n]
  else if n < 256 then [0xcc, n]
  else if n < 2 ^ 16 then 0xcd :: beBytes 2 n
  else if n < 2 ^ 32 then 0xce :: beBytes 4 n
  else 0xcf :: beBytes 8 n

/-- Compact MessagePack encoding of a negative integer (two's complement payload). -/
def encNegInt (i : Int) : List Nat :=
  if -32 ≤ i then [(i + 256).toNat]
  else if -128 ≤ i then [0xd0, (i + 256).toNat]
  else if -(2 ^ 15) ≤ i then 0xd1 :: beBytes 2 (i + 2 ^ 16).toNat
  else if -(2 ^ 31) ≤ i then 0xd2 :: beBytes 4 (i + 2 ^ 32).toNat
  else 0xd3 :: beBytes 8 (i + 2 ^ 64).toNat

/-- MessagePack string header for a payload of `len` bytes. -/
def encStrHeader (len : Nat) : List Nat :=
  if len < 32 then [0xa0 + len]
  else if len < 256 then [0xd9, len]
  else if len < 2 ^ 16 then 0xda :: beBytes 2 len
  else 0xdb :: beBytes 4 len

/-- MessagePack binary-blob header for a payload of `len` bytes. -/
def encBinHeader (len : Nat) : List Nat :=
  if len < 256 then [0xc4, len]
  else if len < 2 ^ 16 then 0xc5 :: beBytes 2 len
  else 0xc6 :: beBytes 4 len

/-- MessagePack array header for `n` elements. -/
def encArrHeader (n : Nat) : List Nat :=
  if n < 16 then [0x90 + n]
  else if n < 2 ^ 16 then 0xdc :: beBytes 2 n
  else 0xdd :: beBytes 4 n

/-- MessagePack map header for `n` key/value pairs: the entry count is written
before any entry (`writer.start_map(size)` in `Dictionary::serialize_`). -/
def encMapHeader (n : Nat) : List Nat :=
  if n < 16 then [0x80 + n]
  else if n < 2 ^ 16 then 0xde :: beBytes 2 n
  else 0xdf :: beBytes 4 n

mutual

/-- The MessagePack byte stream of one wire value. -/
def encodeWire : WireNode → List Nat
  | .nil => [0xc0]
  | .bool b => if b then [0xc3] else [0xc2]
  | .int i => if 0 ≤ i then encUint i.toNat else encNegInt i
  | .uint n => encUint n
  | .float bits => 0xca :: beBytes 4 bits
  | .double bits => 0xcb :: beBytes 8 bits
  | .str s => encStrHeader s.length ++ s
  | .bin s => encBinHeader s.length ++ s
  | .arr items => encArrHeader items.length ++ encodeList items
  | .map entries => encMapHeader entries.length ++ encodeEntries entries

/-- Concatenated encodings of a list of wire values. -/
def encodeList : List WireNode → List Nat
  | [] => []
  | w :: ws => encodeWire w ++ encodeList ws

/-- Concatenated encodings of map entries: each key followed by its value. -/
def encodeEntries : List (WireNode × WireNode) → List Nat
  | [] => []
  | (k, v) :: es => encodeWire k ++ encodeWire v ++ encodeEntries es

end

/-! ## MessagePack parsing

Model of `mpack_tree_init_data` / `mpack_tree_parse` (the mpack library, an
external collaborator not in the sources). Modelled from the spec: decoding
materializes an entire parse tree in memory before any traversal; malformed or
truncated buffers are a parse error (`none`). MessagePack extensions are not
enabled, so `ext` bytes are rejected. Parsing stops after one complete message;
trailing bytes are ignored, as mpack does. -/

/-- Read `k` big-endian bytes into an accumulator; `none` if the buffer is short. -/
def readBE : Nat → Nat → List Nat → Option (Nat × List Nat)
  | 0, acc, bytes => some (acc, bytes)
  | _ + 1, _, [] => none
  | k + 1, acc, b :: rest => readBE k (acc * 256 + b) rest

/-- Split off `n` payload bytes; `none` if the buffer is short. -/
def takeBytes : Nat → List Nat → Option (List Nat × List Nat)
  | 0, bytes => some ([], bytes)
  | _ + 1, [] => none
  | n + 1, b :: rest => do
    let (s, r) ← takeBytes n rest
    some (b :: s, r)

/-- Two's-complement value of a `k`-byte payload. -/
def beToInt (k : Nat) (n : Nat) : Int :=
  if n < 2 ^ (8 * k - 1) then (n : Int) else (n : Int) - 2 ^ (8 * k)

/-- Parse `n` consecutive MessagePack values with the element parser `p`. -/
def parseItems (p : List Nat → Option (WireNode × List Nat)) :
    Nat → List Nat → Option (List WireNode × List Nat)
  | 0, bytes => some ([], bytes)
  | n + 1, bytes => do
    let (w, r) ← p bytes
    let (ws, r2) ← parseItems p n r
    some (w :: ws, r2)

/-- Parse `n` consecutive key/value pairs with the element parser `p`. -/
def parseEntries (p : List Nat → Option (WireNode × List Nat)) :
    Nat → List Nat → Option (List (WireNode × WireNode) × List Nat)
  | 0, bytes => some ([], bytes)
  | n + 1, bytes => do
    let (k, r) ← p bytes
    let (v, r2) ← p r
    let (es, r3) ← parseEntries p n r2
    some ((k, v) :: es, r3)

/-- Parse one MessagePack value (fuel-bounded recursion over nesting depth). -/
def parseW : Nat → List Nat → Option (WireNode × List Nat)
  | 0, _ => none
  | fuel + 1, bytes =>
    match bytes with
    | [] => none
    | b :: rest =>
      if b < 0x80 then some (.uint b, rest)
      else if b < 0x90 then do
        let (es, r) ← parseEntries (parseW fuel) (b - 0x80) rest
        some (.map es, r)
      else if b < 0xa0 then do
        let (ws, r) ← parseItems (parseW fuel) (b - 0x90) rest
        some (.arr ws, r)
      else if b < 0xc0 then do
        let (s, r) ← takeBytes (b - 0xa0) rest
        some (.str s, r)
      else if b = 0xc0 then some (.nil, rest)
      else if b = 0xc1 then none
      else if b = 0xc2 then some (.bool false, rest)
      else if b = 0xc3 then some (.bool true, rest)
      else if b ≤ 0xc6 then do
        let (len, r) ← readBE (2 ^ (b - 0xc4)) 0 rest
        let (s, r2) ← takeBytes len r
        some (.bin s, r2)
      else if b ≤ 0xc9 then none
      else if b = 0xca then do
        let (bits, r) ← readBE 4 0 rest
        some (.float bits, r)
      else if b = 0xcb then do
        let (bits, r) ← readBE 8 0 rest
        some (.double bits, r)
      else if b ≤ 0xcf then do
        let (n, r) ← readBE (2 ^ (b - 0xcc)) 0 rest
        some (.uint n, r)
      else if b ≤ 0xd3 then do
        let (n, r) ← readBE (2 ^ (b - 0xd0)) 0 rest
        some (.int (beToInt (2 ^ (b - 0xd0)) n), r)
      else if b ≤ 0xd8 then none
      else if b ≤ 0xdb then do
        let (len, r) ← readBE (2 ^ (b - 0xd9)) 0 rest
        let (s, r2) ← takeBytes len r
        some (.str s, r2)
      else if b = 0xdc then do
        let (n, r) ← readBE 2 0 rest
        let (ws, r2) ← parseItems (parseW fuel) n r
        some (.arr ws, r2)
      else if b = 0xdd then do
        let (n, r) ← readBE 4 0 rest
        let (ws, r2) ← parseItems (parseW fuel) n r
        some (.arr ws, r2)
      else if b = 0xde then do
        let (n, r) ← readBE 2 0 rest
        let (es, r2) ← parseEntries (parseW fuel) n r
        some (.map es, r2)
      else if b = 0xdf then do
        let (n, r) ← readBE 4 0 rest
        let (es, r2) ← parseEntries (parseW fuel) n r
        some (.map es, r2)
      else if b ≤ 0xff then some (.int ((b : Int) - 256), rest)
      else none

/-- Parse a whole buffer into a tree root (`mpack_tree_parse` + `mpack_tree_root`);
`none` is a parse error (`mpack_tree_error(&tree) != mpack_ok`). The fuel
`bytes.length + 1` dominates the nesting depth of any message that fits in the
buffer. -/
def parseBytes (bytes : List Nat) : Option WireNode :=
  (parseW (bytes.length + 1) bytes).map Prod.fst

/-! ## Numeric getters of the mpack tree API

Modelled from the spec: the mpack library (an external collaborator, not in the
sources) exposes typed getters `mpack_node_int`, `mpack_node_uint`,
`mpack_node_i8` … `mpack_node_u64`, `mpack_node_float`, `mpack_node_double`,
`mpack_node_bool`, `mpack_node_str`/`strlen`, `mpack_node_array_at` and
`mpack_node_array_length`. A getter whose node has the wrong type or whose value
does not fit the requested C type flags an error on the tree and returns zero
(mpack returns a zero value after flagging; the flag itself is not modelled
because `Dictionary` never rechecks it). Conversions to `float`/`double` follow
IEEE-754 round-to-nearest-even, as the C casts do on the target platform. -/

/-- Round the value `num * 2^scale` (with sign `signB`) to an IEEE-754 binary
float with `mb` mantissa bits and `eb` exponent bits, round-to-nearest-even,
returning the bit pattern. -/
def roundFB (mb eb : Nat) (signB : Bool) (num : Nat) (scale : Int) : Nat :=
  let bias : Int := 2 ^ (eb - 1) - 1
  let signBit : Nat := if signB then 2 ^ (mb + eb) else 0
  if num = 0 then signBit else
  let E : Int := (Nat.log2 num : Int) + scale
  let qe : Int := max (E - mb) (1 - bias - mb)
  let shift : Int := qe - scale
  let q : Nat :=
    if shift ≤ 0 then num * 2 ^ (-shift).toNat
    else
      let s := shift.toNat
      let qq := num / 2 ^ s
      let r := num % 2 ^ s
      if r * 2 > 2 ^ s ∨ (r * 2 = 2 ^ s ∧ qq % 2 = 1) then qq + 1 else qq
  if q = 0 then signBit else
  let q2 : Nat := if q = 2 ^ (mb + 1) then 2 ^ mb else q
  let qe2 : Int := if q = 2 ^ (mb + 1) then qe + 1 else qe
  let E2 : Int := (Nat.log2 q2 : Int) + qe2
  if E2 > bias then signBit + (2 ^ eb - 1) * 2 ^ mb
  else if q2 < 2 ^ mb then signBit + q2
  else signBit + (E2 + bias).toNat * 2 ^ mb + (q2 - 2 ^ mb)

/-- IEEE-754 binary64 bit pattern of an integer (C cast `(double)i`). -/
def f64OfInt (i : Int) : Nat := roundFB 52 11 (i < 0) i.natAbs 0

/-- IEEE-754 binary32 bit pattern of an integer (C cast `(float)i`). -/
def f32OfInt (i : Int) : Nat := roundFB 23 8 (i < 0) i.natAbs 0

/-- Widen a binary32 bit pattern to binary64 (C cast `(double)f`, exact). -/
def f64OfF32 (b : Nat) : Nat :=
  let s : Nat := b / 2 ^ 31 % 2
  let e : Nat := b / 2 ^ 23 % 2 ^ 8
  let m : Nat := b % 2 ^ 23
  if e = 255 then s * 2 ^ 63 + 2047 * 2 ^ 52 + m * 2 ^ 29
  else if e = 0 then roundFB 52 11 (s == 1) m (-149)
  else roundFB 52 11 (s == 1) (2 ^ 23 + m) ((e : Int) - 150)

/-- Narrow a binary64 bit pattern to binary32 (C cast `(float)d`, RNE). -/
def f32OfF64 (b : Nat) : Nat :=
  let s : Nat := b / 2 ^ 63 % 2
  let e : Nat := b / 2 ^ 52 % 2 ^ 11
  let m : Nat := b % 2 ^ 52
  if e = 2047 then s * 2 ^ 31 + 255 * 2 ^ 23 + (if m = 0 then 0 else 2 ^ 22)
  else if e = 0 then roundFB 23 8 (s == 1) m (-1074)
  else roundFB 23 8 (s == 1) (2 ^ 52 + m) ((e : Int) - 1075)

/-- `mpack_node_int`: the value as a native `int` (32-bit); zero if the node is
not an integer node or the value does not fit. -/
def nodeIntNative : WireNode → Int
  | .int i => if -(2 ^ 31) ≤ i ∧ i < 2 ^ 31 then i else 0
  | .uint n => if n < 2 ^ 31 then (n : Int) else 0
  | _ => 0

/-- `mpack_node_uint`: the value as a native `unsigned` (32-bit); zero if the
node is not an integer node or the value does not fit. -/
def nodeUintNative : WireNode → Nat
  | .uint n => if n < 2 ^ 32 then n else 0
  | .int i => if 0 ≤ i ∧ i < 2 ^ 32 then i.toNat else 0
  | _ => 0

/-- `mpack_node_i8`/`i16`/`i32`/`i64`: signed value of width `w` bits; zero when
out of range or not an integer node. -/
def nodeIntW (w : Nat) : WireNode → Int
  | .int i => if -(2 ^ (w - 1)) ≤ i ∧ i < 2 ^ (w - 1) then i else 0
  | .uint n => if (n : Int) < 2 ^ (w - 1) then (n : Int) else 0
  | _ => 0

/-- `mpack_node_u8`/`u16`/`u32`/`u64`: unsigned value of width `w` bits; zero
when out of range or not an integer node. -/
def nodeUintW (w : Nat) : WireNode → Nat
  | .uint n => if n < 2 ^ w then n else 0
  | .int i => if 0 ≤ i ∧ i < 2 ^ w then i.toNat else 0
  | _ => 0

/-- `mpack_node_bool`. -/
def nodeBool : WireNode → Bool
  | .bool b => b
  | _ => false

/-- `mpack_node_float`: binary32 bits, converting integer and double nodes. -/
def nodeFloat : WireNode → Nat
  | .float bits => bits
  | .double bits => f32OfF64 bits
  | .int i => f32OfInt i
  | .uint n => f32OfInt (n : Int)
  | _ => 0

/-- `mpack_node_double`: binary64 bits, converting integer and float nodes. -/
def nodeDouble : WireNode → Nat
  | .double bits => bits
  | .float bits => f64OfF32 bits
  | .int i => f64OfInt i
  | .uint n => f64OfInt (n : Int)
  | _ => 0

/-- `mpack_node_str` + `mpack_node_strlen`: the byte string of a str node;
a non-str node yields NULL data and zero length, i.e. the empty string. -/
def nodeStrBytes : WireNode → Str
  | .str s => s
  | _ => []

/-- `mpack_node_array_length`: zero on non-array nodes. -/
def nodeArrayLength : WireNode → Nat
  | .arr items => items.length
  | _ => 0

/-- `mpack_node_array_at`: the `i`-th element; out-of-range or non-array access
flags an error and yields a nil node. -/
def nodeArrayAt (node : WireNode) (i : Nat) : WireNode :=
  match node with
  | .arr items => items.getD i .nil
  | _ => .nil

/-- `mpack_node_type` distinguishes map nodes (used by `Dictionary::deserialize_`). -/
def isWireMap : WireNode → Bool
  | .map _ => true
  | _ => false

/-! ## Typed values

The concrete value types the dictionary supports: the scalar and string types
with `mpack::read<T>` specializations in `palimpsest/mpack/read.h` plus the
Eigen adapter types. `Eigen::Quaterniond` is kept as its four coefficients in
wire order `(w, x, y, z)`; `Eigen::Matrix3d` as its nine entries in row-major
order, with `mat3Entry` as the `value(i, j)` accessor. Floats are bit patterns. -/

inductive CValue where
  | vbool (b : Bool) : CValue
  | vi8 (v : Int) : CValue
  | vi16 (v : Int) : CValue
  | vi32 (v : Int) : CValue
  | vi64 (v : Int) : CValue
  | vu8 (v : Nat) : CValue
  | vu16 (v : Nat) : CValue
  | vu32 (v : Nat) : CValue
  | vu64 (v : Nat) : CValue
  | vf32 (bits : Nat) : CValue
  | vf64 (bits : Nat) : CValue
  | vstr (s : Str) : CValue
  | vec2 (x y : Nat) : CValue
  | vec3 (x y z : Nat) : CValue
  | quat (w x y z : Nat) : CValue
  | mat3 (entries : List Nat) : CValue
  | vecX (entries : List Nat) : CValue
  | vecOfVecX (entries : List (List Nat)) : CValue
deriving DecidableEq

/-- `Eigen::Matrix3d` entry accessor `value(i, j)` on the row-major entry list. -/
def mat3Entry (entries : List Nat) (i j : Nat) : Nat :=
  entries.getD (3 * i + j) 0

/-- The run-time type identity (`typeid(T).hash_code()` compared by
`Value::same`): two stored values have the same C++ type iff their tags agree. -/
def typeTag : CValue → Nat
  | .vbool _ => 0
  | .vi8 _ => 1
  | .vi16 _ => 2
  | .vi32 _ => 3
  | .vi64 _ => 4
  | .vu8 _ => 5
  | .vu16 _ => 6
  | .vu32 _ => 7
  | .vu64 _ => 8
  | .vf32 _ => 9
  | .vf64 _ => 10
  | .vstr _ => 11
  | .vec2 _ _ => 12
  | .vec3 _ _ _ => 13
  | .quat _ _ _ _ => 14
  | .mat3 _ => 15
  | .vecX _ => 16
  | .vecOfVecX _ => 17

/-- Wire-node type categories accepted by the integer `mpack::read<T>`
specializations (`mpack_type_int` or `mpack_type_uint`). -/
def isWireIntOrUint : WireNode → Bool
  | .int _ => true
  | .uint _ => true
  | _ => false

/-- Wire-node type categories accepted by `mpack::read<float>` /
`mpack::read<double>` (int, uint, float or double). -/
def isWireNumeric : WireNode → Bool
  | .int _ => true
  | .uint _ => true
  | .float _ => true
  | .double _ => true
  | _ => false

/-- `mpack::read<double>`: throws `TypeError` unless the node is numeric, then
takes `mpack_node_double` (`palimpsest/mpack/read.h`, `read<double>`). -/
def readDoubleNode (node : WireNode) : Except Err Nat :=
  if isWireNumeric node then .ok (nodeDouble node) else .error .typeError

/-- `Value::deserialize` (`palimpsest/Value.h`): dispatch to the
`mpack::read<T>` specialization for the stored type `T`
(`palimpsest/mpack/read.h`) and update the stored value in place.

* Integer reads accept int and uint nodes (uint-only for unsigned types) and go
  through the width-checked mpack getters.
* Fixed-size Eigen reads only check that the node is an array — the element
  count is a plain `assert` in the source, compiled out in release builds — and
  read their elements at fixed indices, so extra elements are ignored and
  missing ones become nil reads that fail as `TypeError`.
* `Eigen::VectorXd` reads `mpack_node_array_length(node)` elements (the source
  asserts, without checking, that this equals the stored size).
* `std::vector<Eigen::VectorXd>` has no `read` specialization: the generic
  template throws `TypeError`. -/
def readValue (v : CValue) (node : WireNode) : Except Err CValue :=
  match v with
  | .vbool _ =>
    match node with
    | .bool b => .ok (.vbool b)
    | _ => .error .typeError
  | .vi8 _ =>
    if isWireIntOrUint node then .ok (.vi8 (nodeIntW 8 node)) else .error .typeError
  | .vi16 _ =>
    if isWireIntOrUint node then .ok (.vi16 (nodeIntW 16 node)) else .error .typeError
  | .vi32 _ =>
    if isWireIntOrUint node then .ok (.vi32 (nodeIntW 32 node)) else .error .typeError
  | .vi64 _ =>
    if isWireIntOrUint node then .ok (.vi64 (nodeIntW 64 node)) else .error .typeError
  | .vu8 _ =>
    match node with
    | .uint _ => .ok (.vu8 (nodeUintW 8 node))
    | _ => .error .typeError
  | .vu16 _ =>
    match node with
    | .uint _ => .ok (.vu16 (nodeUintW 16 node))
    | _ => .error .typeError
  | .vu32 _ =>
    match node with
    | .uint _ => .ok (.vu32 (nodeUintW 32 node))
    | _ => .error .typeError
  | .vu64 _ =>
    match node with
    | .uint _ => .ok (.vu64 (nodeUintW 64 node))
    | _ => .error .typeError
  | .vf32 _ =>
    if isWireNumeric node then .ok (.vf32 (nodeFloat node)) else .error .typeError
  | .vf64 _ =>
    if isWireNumeric node then .ok (.vf64 (nodeDouble node)) else .error .typeError
  | .vstr _ =>
    match node with
    | .str s => .ok (.vstr s)
    | _ => .error .typeError
  | .vec2 _ _ =>
    match node with
    | .arr _ => do
      let x ← readDoubleNode (nodeArrayAt node 0)
      let y ← readDoubleNode (nodeArrayAt node 1)
      .ok (.vec2 x y)
    | _ => .error .typeError
  | .vec3 _ _ _ =>
    match node with
    | .arr _ => do
      let x ← readDoubleNode (nodeArrayAt node 0)
      let y ← readDoubleNode (nodeArrayAt node 1)
      let z ← readDoubleNode (nodeArrayAt node 2)
      .ok (.vec3 x y z)
    | _ => .error .typeError
  | .quat _ _ _ _ =>
    match node with
    | .arr _ => do
      let w ← readDoubleNode (nodeArrayAt node 0)
      let x ← readDoubleNode (nodeArrayAt node 1)
      let y ← readDoubleNode (nodeArrayAt node 2)
      let z ← readDoubleNode (nodeArrayAt node 3)
      .ok (.quat w x y z)
    | _ => .error .typeError
  | .mat3 _ =>
    match node with
    | .arr _ => do
      let es ← ((List.range 3).flatMap fun i => (List.range 3).map fun j => 3 * i + j).mapM
        fun idx => readDoubleNode (nodeArrayAt node idx)
      .ok (.mat3 es)
    | _ => .error .typeError
  | .vecX _ =>
    match node with
    | .arr _ => do
      let es ← (List.range (nodeArrayLength node)).mapM
        fun i => readDoubleNode (nodeArrayAt node i)
      .ok (.vecX es)
    | _ => .error .typeError
  | .vecOfVecX _ => .error .typeError

/-! ## The dictionary

`palimpsest::Dictionary` holds a `Value value_` (an optionally-filled type-erased
slot) and an `unordered_map<string, unique_ptr<Dictionary>> map_`. We model the
value slot as `Option CValue` and the map as an association list in insertion
order (`unordered_map` iteration order is unspecified; the model fixes it to
insertion order, which is also the serialization order). -/

inductive Dict where
  | mk (val : Option CValue) (children : List (Str × Dict)) : Dict

/-- The `value_` member. -/
def Dict.val : Dict → Option CValue
  | .mk v _ => v

/-- The `map_` member. -/
def Dict.children : Dict → List (Str × Dict)
  | .mk _ cs => cs

/-- A default-constructed `Dictionary`. -/
def dEmpty : Dict := .mk none []

/-- `Dictionary::is_map`: the value slot is unset (`value_.buffer == nullptr`). -/
def Dict.is_map (d : Dict) : Bool := d.val.isNone

/-- `Dictionary::is_value`: the value slot is set. -/
def Dict.is_value (d : Dict) : Bool := d.val.isSome

/-- `Dictionary::is_empty`: a map with no entries. -/
def Dict.is_empty (d : Dict) : Bool := d.is_map && d.children.length < 1

/-- `Dictionary::size`: number of keys. -/
def Dict.size (d : Dict) : Nat := d.children.length

/-- `map_.find(key)`: the child stored at a key, if any. -/
def findChild (d : Dict) (key : Str) : Option Dict :=
  (d.children.find? fun e => e.1 == key).map Prod.snd

/-- `Dictionary::has`. -/
def Dict.has (d : Dict) (key : Str) : Bool := (findChild d key).isSome

/-- Replace the child at a key (in-place mutation through the reference
`map_.find(key)->second`). -/
def setChild (d : Dict) (key : Str) (c : Dict) : Dict :=
  .mk d.val (d.children.map fun e => if e.1 == key then (e.1, c) else e)

/-- The non-const `Dictionary::operator()(key)`: `TypeError` on a value node,
otherwise get-or-create (`map_.try_emplace(key, make_unique<Dictionary>())`),
returning the updated dictionary (the created child is `findChild` of it). -/
def opParen (d : Dict) (key : Str) : Except Err Dict :=
  if d.is_value then .error .typeError
  else if d.has key then .ok d
  else .ok (.mk d.val (d.children ++ [(key, dEmpty)]))

/-- `Dictionary::insert<T>(key, args...)` with the constructed value `v`:
`TypeError` if this node is a value; otherwise materialize the child via
`operator()`; if the child is non-empty, warn and return the existing object
through `get<T>` (which throws `TypeError` when the child is a map or holds a
different type, and leaves the dictionary unchanged); otherwise type the fresh
child with `v`. -/
def insertOp (d : Dict) (key : Str) (v : CValue) : Except Err Dict :=
  if d.is_value then .error .typeError
  else
    match findChild d key with
    | some child =>
      if child.is_empty then .ok (setChild d key (.mk (some v) child.children))
      else if child.is_value && (child.val.map typeTag == some (typeTag v)) then .ok d
      else .error .typeError
    | none => .ok (.mk d.val (d.children ++ [(key, .mk (some v) [])]))

/-- `Dictionary::operator=<T>(new_value)`: clear the map if this is a map, then
become the value if empty; if already a value, assign in place through
`value_.get_reference<T>()`, which throws `TypeError` on a type mismatch. -/
def assignOp (d : Dict) (v : CValue) : Except Err Dict :=
  match d.val with
  | none => .ok (.mk (some v) [])
  | some v0 =>
    if typeTag v0 = typeTag v then .ok (.mk (some v) d.children)
    else .error .typeError

/-- `Dictionary::clear`: remove all entries (the source asserts `is_map`). -/
def clearOp (d : Dict) : Dict := .mk d.val []

/-- `Dictionary::remove(key)`: erase the entry, or log and do nothing when the
key is absent. -/
def removeOp (d : Dict) (key : Str) : Dict :=
  match findChild d key with
  | none => d
  | some _ => .mk d.val (d.children.eraseP fun e => e.1 == key)

/-- `Dictionary::popitem` — declared in `palimpsest/Dictionary.h` (lines
517–541) but its body is not among the sources. Modelled from the spec:
removes and returns an arbitrary (key, node) pair — here the first entry —
failing with `TypeError` (not a map) on a value node and `KeyError` on an
empty dictionary. -/
def popitem (d : Dict) : Except Err ((Str × Dict) × Dict) :=
  if d.is_value then .error .typeError
  else
    match d.children with
    | [] => .error .keyError
    | e :: rest => .ok (e, .mk d.val rest)

/-- `Dictionary::update(other)` (`Dictionary.cpp`, lines 427–430): throws
`PalimpsestError` unconditionally; the dictionary is never touched. -/
def update (_d _other : Dict) : Except Err Dict :=
  .error (.palimpsestError "Dictionary::update is not implemented yet")

/-- Write-back of the child `operator()(key)` refers to: replace it when the
key exists, otherwise the entry `try_emplace` created. -/
def putChild (d : Dict) (key : Str) (c : Dict) : Dict :=
  if d.has key then setChild d key c else .mk d.val (d.children ++ [(key, c)])

/-! ## Serialization

`Dictionary::serialize` / `serialize_` stream the tree through `mpack::Writer`:
a value node defers to the registered `mpack::write<T>` of its stored type, a
map node writes its entry count and then each key/child pair. The
`mpack::write<T>` specializations (`palimpsest/mpack/write.h`, not among the
sources) are modelled from the spec: booleans, integers (most compact form,
non-negative values in uint format), floats/doubles of matching width, UTF-8
strings, Eigen vectors/quaternions (wire order `(w, x, y, z)`)/matrices
(row-major) as arrays of doubles, and vectors of vectors as nested arrays. -/

/-- `mpack_write_int`: non-negative values use the unsigned wire format. -/
def intWire (v : Int) : WireNode := if 0 ≤ v then .uint v.toNat else .int v

/-- The wire value a stored value serializes to (`mpack::write<T>`). -/
def valueToWire : CValue → WireNode
  | .vbool b => .bool b
  | .vi8 v => intWire v
  | .vi16 v => intWire v
  | .vi32 v => intWire v
  | .vi64 v => intWire v
  | .vu8 v => .uint v
  | .vu16 v => .uint v
  | .vu32 v => .uint v
  | .vu64 v => .uint v
  | .vf32 bits => .float bits
  | .vf64 bits => .double bits
  | .vstr s => .str s
  | .vec2 x y => .arr [.double x, .double y]
  | .vec3 x y z => .arr [.double x, .double y, .double z]
  | .quat w x y z => .arr [.double w, .double x, .double y, .double z]
  | .mat3 es => .arr (es.map .double)
  | .vecX es => .arr (es.map .double)
  | .vecOfVecX ess => .arr (ess.map fun es => .arr (es.map .double))

mutual

/-- The wire tree `Dictionary::serialize_` writes. -/
def dictToWire : Dict → WireNode
  | .mk (some v) _ => valueToWire v
  | .mk none cs => .map (entriesToWire cs)

/-- Wire entries of a map node, in iteration order. -/
def entriesToWire : List (Str × Dict) → List (WireNode × WireNode)
  | [] => []
  | (k, c) :: rest => (.str k, dictToWire c) :: entriesToWire rest

end

/-- `Dictionary::serialize(buffer)`: the MessagePack bytes of the tree. -/
def serialize (d : Dict) : List Nat := encodeWire (dictToWire d)

/-! ## Merge (deserialization)

`Dictionary::deserialize_` and `Dictionary::insert_at_key_`
(`Dictionary.cpp`, lines 65–190). -/

/-- The Eigen read helpers of `palimpsest/mpack/eigen.h` (not among the
sources). Modelled from the spec: `mpack_node_vector2d` reads two doubles. -/
def mpackNodeVector2d (node : WireNode) : CValue :=
  .vec2 (nodeDouble (nodeArrayAt node 0)) (nodeDouble (nodeArrayAt node 1))

/-- Modelled from the spec: `mpack_node_vector3d` reads three doubles. -/
def mpackNodeVector3d (node : WireNode) : CValue :=
  .vec3 (nodeDouble (nodeArrayAt node 0)) (nodeDouble (nodeArrayAt node 1))
    (nodeDouble (nodeArrayAt node 2))

/-- Modelled from the spec: `mpack_node_quaterniond` reads four doubles in wire
order `(w, x, y, z)`. -/
def mpackNodeQuaterniond (node : WireNode) : CValue :=
  .quat (nodeDouble (nodeArrayAt node 0)) (nodeDouble (nodeArrayAt node 1))
    (nodeDouble (nodeArrayAt node 2)) (nodeDouble (nodeArrayAt node 3))

/-- Modelled from the spec: `mpack_node_matrix3d` reads nine doubles, entry
`(i, j)` from array index `3 * i + j` (row-major). -/
def mpackNodeMatrix3d (node : WireNode) : CValue :=
  .mat3 ((List.range 3).flatMap fun i =>
    (List.range 3).map fun j => nodeDouble (nodeArrayAt node (3 * i + j)))

/-- Modelled from the spec: `mpack_node_vectorXd` reads
`mpack_node_array_length` doubles. -/
def mpackNodeVectorXd (node : WireNode) : CValue :=
  .vecX ((List.range (nodeArrayLength node)).map fun i =>
    nodeDouble (nodeArrayAt node i))

/-- One inner vector of the array-of-arrays branch of `insert_at_key_`:
`TypeError` on a non-array item; element `j` is
`mpack_node_double(mpack_node_array_at(sub_array, j))`. -/
def readSubVector : WireNode → Except Err (List Nat)
  | .arr subitems => .ok (subitems.map nodeDouble)
  | _ => .error .typeError

mutual

/-- `Dictionary::deserialize_(node)` (`Dictionary.cpp`, lines 65–98): nil is
skipped; a value node decodes the payload into its slot; otherwise the node is
a (possibly empty) map, a non-map payload is a `TypeError`, and each wire entry
is merged into the existing child or freshly inserted. -/
def deserializeNode (d : Dict) (node : WireNode) : Except Err Dict :=
  match node with
  | .nil => .ok d
  | .map entries =>
    match d.val with
    | some v => do
      let v2 ← readValue v (.map entries)
      .ok (.mk (some v2) d.children)
    | none => deserializeEntries d entries
  | nd =>
    match d.val with
    | some v => do
      let v2 ← readValue v nd
      .ok (.mk (some v2) d.children)
    | none => .error .typeError
termination_by (sizeOf node, 0)

/-- The entry loop of `deserialize_`: a key already in `map_` is merged
recursively (a `TypeError` is rethrown with the key appended to its message);
a fresh key goes through `insert_at_key_`. -/
def deserializeEntries (d : Dict) (entries : List (WireNode × WireNode)) :
    Except Err Dict :=
  match entries with
  | [] => .ok d
  | (kn, vn) :: rest => do
    let key := nodeStrBytes kn
    match findChild d key with
    | none => do
      let d2 ← insertAtKey d key vn
      deserializeEntries d2 rest
    | some child => do
      let c2 ← deserializeNode child vn
      deserializeEntries (setChild d key c2) rest
termination_by (sizeOf entries, 2)

/-- `Dictionary::insert_at_key_(key, value)` (`Dictionary.cpp`, lines 100–190):
infer the stored type from the wire shape. Integers always become native
`int` / `unsigned` (32-bit); arrays of doubles become `Vector2d` / `Vector3d` /
`Quaterniond` / `Matrix3d` / `VectorXd` by length (empty arrays are a
`TypeError`); arrays of arrays become `std::vector<Eigen::VectorXd>`; maps
recurse through `operator()(key).deserialize_(value)`; nil, binary blobs and
arrays of any other element type are a `TypeError`. In the array-of-arrays
branch the source inserts the vector before validating the items, so on a
`TypeError` the already-inserted vector stays behind; the model validates
first, which yields the same result except for that post-exception state. -/
def insertAtKey (d : Dict) (key : Str) (node : WireNode) : Except Err Dict :=
  match node with
  | .bool _ => insertOp d key (.vbool (nodeBool node))
  | .int _ => insertOp d key (.vi32 (nodeIntNative node))
  | .uint _ => insertOp d key (.vu32 (nodeUintNative node))
  | .float _ => insertOp d key (.vf32 (nodeFloat node))
  | .double _ => insertOp d key (.vf64 (nodeDouble node))
  | .str s => insertOp d key (.vstr s)
  | .arr items =>
    if items.length = 0 then .error .typeError
    else
      match nodeArrayAt node 0 with
      | .double _ =>
        if items.length = 2 then insertOp d key (mpackNodeVector2d node)
        else if items.length = 3 then insertOp d key (mpackNodeVector3d node)
        else if items.length = 4 then insertOp d key (mpackNodeQuaterniond node)
        else if items.length = 9 then insertOp d key (mpackNodeMatrix3d node)
        else insertOp d key (mpackNodeVectorXd node)
      | .arr _ => do
        let vs ← items.mapM readSubVector
        insertOp d key (.vecOfVecX vs)
      | _ => .error .typeError
  | .map entries =>
    if d.is_value then .error .typeError
    else do
      let c2 ← deserializeNode ((findChild d key).getD dEmpty) (.map entries)
      .ok (putChild d key c2)
  | .bin _ => .error .typeError
  | .nil => .error .typeError
termination_by (sizeOf node, 1)

end

/-- `Dictionary::deserialize(data, size)` (`Dictionary.cpp`, lines 51–63):
parse the buffer into an mpack tree; on a parse error, log and skip (the
dictionary is left untouched); otherwise merge the root node. -/
def deserializeBytes (d : Dict) (data : List Nat) : Except Err Dict :=
  match parseBytes data with
  | none => .ok d
  | some root => deserializeNode d root

/-! ## Structural difference

`Dictionary::difference(other)` (`Dictionary.cpp`, lines 192–303). -/

/-- The literal key `"temp"` the source stages extracted values under. -/
def tempKey : Str := [0x74, 0x65, 0x6d, 0x70]

/-- The value branches of `difference`: serialize this value, reparse the
bytes, insert them under `"temp"` in the fresh result and move the child out;
a parse error of the freshly written buffer silently leaves the result empty. -/
def diffExtractValue (a : Dict) : Except Err Dict :=
  match parseBytes (serialize a) with
  | none => .ok dEmpty
  | some w => do
    let r ← insertAtKey dEmpty tempKey w
    .ok ((findChild r tempKey).getD dEmpty)

mutual

/-- `Dictionary::difference(other)`: empty diffs to empty; a value is kept
wholesale unless `other` is a value with byte-identical serialization; a map
recurses over its own keys. -/
def difference (a b : Dict) : Except Err Dict :=
  if a.is_empty then .ok dEmpty
  else
    match a with
    | .mk (some v) acs =>
      if b.is_value then
        if serialize (.mk (some v) acs) = serialize b then .ok dEmpty
        else diffExtractValue (.mk (some v) acs)
      else diffExtractValue (.mk (some v) acs)
    | .mk none acs => diffEntries b acs dEmpty
termination_by (sizeOf a, 0)

/-- The per-key loop of `difference` over the children of `a`, accumulating
into `result`: a key absent from `b` is copied wholesale (values through
reparse + `insert_at_key_`, subtrees through `result(key).deserialize`); a key
present in `b` contributes its recursive difference when non-empty. -/
def diffEntries (b : Dict) (entries : List (Str × Dict)) (result : Dict) :
    Except Err Dict :=
  match entries with
  | [] => .ok result
  | (key, ac) :: rest =>
    match findChild b key with
    | none =>
      if ac.is_value then
        match parseBytes (serialize ac) with
        | none => diffEntries b rest result
        | some w => do
          let r2 ← insertAtKey result key w
          diffEntries b rest r2
      else do
        let c ← deserializeBytes dEmpty (serialize ac)
        diffEntries b rest (putChild result key c)
    | some bc => do
      let cd ← difference ac bc
      if cd.is_empty then diffEntries b rest result
      else if cd.is_value then
        match parseBytes (serialize cd) with
        | none => diffEntries b rest result
        | some w => do
          let r2 ← insertAtKey result key w
          diffEntries b rest r2
      else do
        let c ← deserializeBytes dEmpty (serialize cd)
        diffEntries b rest (putChild result key c)
termination_by (sizeOf entries, 1)

end

/-! ## Well-formedness and auxiliary notions used by the theorems -/

mutual

/-- Wire trees that actually arise from mpack buffers: byte strings are bytes,
lengths fit their headers, integer nodes of type `int` are negative (mpack
writes non-negative integers in uint format), numeric bit patterns fit their
width. -/
def wfWire : WireNode → Bool
  | .nil => true
  | .bool _ => true
  | .int i => decide (-(2 ^ 63) ≤ i ∧ i < 0)
  | .uint n => decide (n < 2 ^ 64)
  | .float bits => decide (bits < 2 ^ 32)
  | .double bits => decide (bits < 2 ^ 64)
  | .str s => decide (s.length < 2 ^ 32) && s.all fun b => decide (b < 256)
  | .bin s => decide (s.length < 2 ^ 32) && s.all fun b => decide (b < 256)
  | .arr items => decide (items.length < 2 ^ 32) && wfWireList items
  | .map entries => decide (entries.length < 2 ^ 32) && wfWireEntries entries

/-- All elements well-formed. -/
def wfWireList : List WireNode → Bool
  | [] => true
  | w :: ws => wfWire w && wfWireList ws

/-- All keys and values well-formed. -/
def wfWireEntries : List (WireNode × WireNode) → Bool
  | [] => true
  | (k, v) :: es => wfWire k && wfWire v && wfWireEntries es

end

mutual

/-- Nesting depth of a wire tree (the fuel `parseW` needs). -/
def wireDepth : WireNode → Nat
  | .arr items => wireDepthList items + 1
  | .map entries => wireDepthEntries entries + 1
  | _ => 1

/-- Largest element depth. -/
def wireDepthList : List WireNode → Nat
  | [] => 0
  | w :: ws => max (wireDepth w) (wireDepthList ws)

/-- Largest key/value depth. -/
def wireDepthEntries : List (WireNode × WireNode) → Nat
  | [] => 0
  | (k, v) :: es => max (max (wireDepth k) (wireDepth v)) (wireDepthEntries es)

end

/-- Stored values whose serialization can be merged back without loss: integer
values within the native 32-bit ranges the re-inference uses, float bit
patterns of the right width, byte strings, matrices with their nine entries,
and non-empty dynamic-length arrays (empty wire arrays preclude type
inference). -/
def rtSafeValue : CValue → Bool
  | .vbool _ => true
  | .vi8 v => decide (-(2 ^ 31) ≤ v ∧ v < 2 ^ 32)
  | .vi16 v => decide (-(2 ^ 31) ≤ v ∧ v < 2 ^ 32)
  | .vi32 v => decide (-(2 ^ 31) ≤ v ∧ v < 2 ^ 32)
  | .vi64 v => decide (-(2 ^ 31) ≤ v ∧ v < 2 ^ 32)
  | .vu8 v => decide (v < 2 ^ 32)
  | .vu16 v => decide (v < 2 ^ 32)
  | .vu32 v => decide (v < 2 ^ 32)
  | .vu64 v => decide (v < 2 ^ 32)
  | .vf32 bits => decide (bits < 2 ^ 32)
  | .vf64 bits => decide (bits < 2 ^ 64)
  | .vstr s => decide (s.length < 2 ^ 32) && s.all fun b => decide (b < 256)
  | .vec2 x y => decide (x < 2 ^ 64 ∧ y < 2 ^ 64)
  | .vec3 x y z => decide (x < 2 ^ 64 ∧ y < 2 ^ 64 ∧ z < 2 ^ 64)
  | .quat w x y z => decide (w < 2 ^ 64 ∧ x < 2 ^ 64 ∧ y < 2 ^ 64 ∧ z < 2 ^ 64)
  | .mat3 es => decide (es.length = 9) && es.all fun b => decide (b < 2 ^ 64)
  | .vecX es =>
    decide (0 < es.length ∧ es.length < 2 ^ 32) && es.all fun b => decide (b < 2 ^ 64)
  | .vecOfVecX ess =>
    decide (0 < ess.length ∧ ess.length < 2 ^ 32) &&
      ess.all fun es =>
        decide (es.length < 2 ^ 32) && es.all fun b => decide (b < 2 ^ 64)

mutual

/-- Dictionaries whose wire round trip is lossless: keys are distinct byte
strings within header bounds, entry counts fit, and every stored value is
`rtSafeValue`. -/
def rtSafe : Dict → Bool
  | .mk (some v) _ => rtSafeValue v
  | .mk none cs =>
    decide (cs.length < 2 ^ 32) && decide ((cs.map Prod.fst).Nodup) && rtSafeChildren cs

/-- All children round-trip safe, with well-formed keys. -/
def rtSafeChildren : List (Str × Dict) → Bool
  | [] => true
  | (k, c) :: rest =>
    (decide (k.length < 2 ^ 32) && k.all fun b => decide (b < 256)) && rtSafe c &&
      rtSafeChildren rest

end

mutual

/-- Same tree structure: both nodes are values, or both are maps with the same
keys in order and structurally equal children (stored concrete types are not
compared). -/
def sameShape : Dict → Dict → Bool
  | .mk (some _) _, .mk (some _) _ => true
  | .mk none cs, .mk none cs2 => sameShapeChildren cs cs2
  | _, _ => false

/-- Pointwise `sameShape` with equal keys. -/
def sameShapeChildren : List (Str × Dict) → List (Str × Dict) → Bool
  | [], [] => true
  | (k, c) :: r, (k2, c2) :: r2 => k == k2 && sameShape c c2 && sameShapeChildren r r2
  | _, _ => false

end

mutual

/-- The exclusivity invariant of claim C10: whenever the value slot is set, the
key map is empty — at every reachable node. -/
def inv : Dict → Bool
  | .mk (some _) cs => cs.isEmpty
  | .mk none cs => invChildren cs

/-- The invariant on every child. -/
def invChildren : List (Str × Dict) → Bool
  | [] => true
  | (_, c) :: rest => inv c && invChildren rest

end

/-- Call `popitem` repeatedly until the dictionary is empty, collecting the
popped pairs; any `popitem` failure propagates. Each successful `popitem`
shrinks the map by one entry, so `d.size` rounds of fuel always suffice; the
out-of-fuel case (reachable only on a non-empty value node, where `popitem`
fails anyway) surfaces the `popitem` error. -/
def popAllF (fuel : Nat) (d : Dict) : Except Err (List (Str × Dict) × Dict) :=
  match fuel with
  | 0 =>
    if d.is_empty then .ok ([], d)
    else match popitem d with
      | .error e => .error e
      | .ok _ => .error .keyError
  | fuel + 1 =>
    if d.is_empty then .ok ([], d)
    else match popitem d with
      | .error e => .error e
      | .ok (e, d2) => do
        let (es, dF) ← popAllF fuel d2
        .ok (e :: es, dF)

/-- `popitem` until empty, with the fuel bound that always suffices. -/
def popAll (d : Dict) : Except Err (List (Str × Dict) × Dict) :=
  popAllF d.size d

/-- Build a dictionary by inserting the given key/value pairs in order into a
fresh dictionary, each through `Dictionary::insert<T>`. -/
def buildD (kvs : List (Str × CValue)) : Except Err Dict :=
  kvs.foldlM (fun d e => insertOp d e.1 e.2) dEmpty

mutual

/-- Key uniqueness at every map node: what `unordered_map` guarantees in the
C++ object and the association-list model must assume. -/
def uniqKeys : Dict → Bool
  | .mk _ cs => decide ((cs.map Prod.fst).Nodup) && uniqChildren cs

/-- Key uniqueness in every child. -/
def uniqChildren : List (Str × Dict) → Bool
  | [] => true
  | (_, c) :: rest => uniqKeys c && uniqChildren rest

end

/-! ## Byte-level lemmas -/

theorem readBE_beBytes : ∀ (k acc n : Nat) (rest : List Nat), n < 256 ^ k →
    readBE k acc (beBytes k n ++ rest) = some (acc * 256 ^ k + n, rest) := by
  intro k
  induction k with
  | zero =>
    intro acc n rest h
    have hn : n = 0 := by simpa using h
    subst hn
    simp [beBytes, readBE]
  | succ k ih =>
    intro acc n rest h
    have hlt : n % 256 ^ k < 256 ^ k := Nat.mod_lt _ (by positivity)
    simp only [beBytes, List.cons_append, List.append_eq, readBE]
    rw [ih (acc * 256 + n / 256 ^ k) (n % 256 ^ k) rest hlt]
    have hdm : 256 ^ k * (n / 256 ^ k) + n % 256 ^ k = n := Nat.div_add_mod n (256 ^ k)
    have : (acc * 256 + n / 256 ^ k) * 256 ^ k + n % 256 ^ k =
        acc * 256 ^ (k + 1) + n := by
      calc (acc * 256 + n / 256 ^ k) * 256 ^ k + n % 256 ^ k
          = acc * (256 ^ k * 256) + (256 ^ k * (n / 256 ^ k) + n % 256 ^ k) := by ring
        _ = acc * 256 ^ (k + 1) + n := by rw [hdm, pow_succ]
    rw [this]

theorem readBE_beBytes0 (k n : Nat) (rest : List Nat) (h : n < 256 ^ k) :
    readBE k 0 (beBytes k n ++ rest) = some (n, rest) := by
  simpa using readBE_beBytes k 0 n rest h

theorem takeBytes_append : ∀ (s rest : List Nat),
    takeBytes s.length (s ++ rest) = some (s, rest) := by
  intro s
  induction s with
  | nil => intro rest; simp [takeBytes]
  | cons b bs ih => intro rest; simp [takeBytes, ih rest]

theorem parseW_encUint (f n : Nat) (rest : List Nat) (h : n < 2 ^ 64) :
    parseW (f + 1) (encUint n ++ rest) = some (.uint n, rest) := by
  unfold encUint
  by_cases h1 : n < 128
  · rw [if_pos h1]
    simp only [List.cons_append, List.nil_append, parseW]
    rw [if_pos (show n < 0x80 by omega)]
  · rw [if_neg h1]
    by_cases h2 : n < 256
    · rw [if_pos h2]
      simp [parseW, readBE]
    · rw [if_neg h2]
      by_cases h3 : n < 2 ^ 16
      · rw [if_pos h3]
        simp only [List.cons_append, parseW]
        norm_num
        rw [readBE_beBytes0 2 n rest (by omega)]
        simp
      · rw [if_neg h3]
        by_cases h4 : n < 2 ^ 32
        · rw [if_pos h4]
          simp only [List.cons_append, parseW]
          norm_num
          rw [readBE_beBytes0 4 n rest (by omega)]
          simp
        · rw [if_neg h4]
          simp only [List.cons_append, parseW]
          norm_num
          rw [readBE_beBytes0 8 n rest (by omega)]
          simp

theorem parseW_negfixint (f b : Nat) (rest : List Nat) (h1 : 224 ≤ b) (h2 : b ≤ 255) :
    parseW (f + 1) (b :: rest) = some (.int ((b : Int) - 256), rest) := by
  interval_cases b <;> simp [parseW]

theorem beToInt_neg1 (i : Int) (h1 : -128 ≤ i) (h2 : i < 0) :
    beToInt 1 (i + 256).toNat = i := by
  unfold beToInt
  rw [if_neg (by omega)]
  omega

theorem beToInt_neg2 (i : Int) (h1 : -(2 ^ 15) ≤ i) (h2 : i < 0) :
    beToInt 2 (i + 65536).toNat = i := by
  unfold beToInt
  rw [if_neg (by omega)]
  omega

theorem beToInt_neg4 (i : Int) (h1 : -(2 ^ 31) ≤ i) (h2 : i < 0) :
    beToInt 4 (i + 4294967296).toNat = i := by
  unfold beToInt
  rw [if_neg (by omega)]
  omega

theorem beToInt_neg8 (i : Int) (h1 : -(2 ^ 63) ≤ i) (h2 : i < 0) :
    beToInt 8 (i + 18446744073709551616).toNat = i := by
  unfold beToInt
  rw [if_neg (by omega)]
  omega

theorem parseW_encNegInt (f : Nat) (i : Int) (rest : List Nat)
    (h : -(2 ^ 63) ≤ i) (h0 : i < 0) :
    parseW (f + 1) (encNegInt i ++ rest) = some (.int i, rest) := by
  unfold encNegInt
  by_cases h1 : -32 ≤ i
  · rw [if_pos h1]
    simp only [List.cons_append, List.nil_append]
    rw [parseW_negfixint f (i + 256).toNat rest (by omega) (by omega)]
    rw [show ((i + 256).toNat : Int) = i + 256 from Int.toNat_of_nonneg (by omega)]
    norm_num
  · rw [if_neg h1]
    by_cases h2 : -128 ≤ i
    · rw [if_pos h2]
      simp only [List.cons_append, List.nil_append]
      simp [parseW, readBE]
      rw [beToInt_neg1 i (by omega) h0]
    · rw [if_neg h2]
      by_cases h3 : -(2 ^ 15) ≤ i
      · rw [if_pos h3]
        simp only [List.cons_append]
        simp [parseW]
        rw [readBE_beBytes0 2 (i + 65536).toNat rest (by omega)]
        simp [beToInt_neg2 i h3 h0]
      · rw [if_neg h3]
        by_cases h4 : -(2 ^ 31) ≤ i
        · rw [if_pos h4]
          simp only [List.cons_append]
          simp [parseW]
          rw [readBE_beBytes0 4 (i + 4294967296).toNat rest (by omega)]
          simp [beToInt_neg4 i h4 h0]
        · rw [if_neg h4]
          simp only [List.cons_append]
          simp [parseW]
          rw [readBE_beBytes0 8 (i + 18446744073709551616).toNat rest (by omega)]
          simp [beToInt_neg8 i h h0]


theorem parseW_encFloat (f bits : Nat) (rest : List Nat) (h : bits < 2 ^ 32) :
    parseW (f + 1) ((0xca :: beBytes 4 bits) ++ rest) = some (.float bits, rest) := by
  simp only [List.cons_append, parseW]
  norm_num
  rw [readBE_beBytes0 4 bits rest (by omega)]
  rfl

theorem parseW_encDouble (f bits : Nat) (rest : List Nat) (h : bits < 2 ^ 64) :
    parseW (f + 1) ((0xcb :: beBytes 8 bits) ++ rest) = some (.double bits, rest) := by
  simp only [List.cons_append, parseW]
  norm_num
  rw [readBE_beBytes0 8 bits rest (by omega)]
  rfl

theorem parseW_encStr (f : Nat) (s : Str) (rest : List Nat) (h : s.length < 2 ^ 32) :
    parseW (f + 1) ((encStrHeader s.length ++ s) ++ rest) = some (.str s, rest) := by
  rw [List.append_assoc]
  unfold encStrHeader
  by_cases h1 : s.length < 32
  · rw [if_pos h1]
    simp only [List.cons_append, List.nil_append, parseW]
    rw [if_neg (by omega), if_neg (by omega), if_neg (by omega), if_pos (by omega)]
    rw [show 0xa0 + s.length - 0xa0 = s.length by omega, takeBytes_append]
    rfl
  · rw [if_neg h1]
    by_cases h2 : s.length < 256
    · rw [if_pos h2]
      simp only [List.cons_append, parseW]
      norm_num [readBE]
      rw [takeBytes_append]
      rfl
    · rw [if_neg h2]
      by_cases h3 : s.length < 2 ^ 16
      · rw [if_pos h3]
        simp only [List.cons_append, parseW]
        norm_num
        rw [readBE_beBytes0 2 s.length (s ++ rest) (by omega)]
        rw [show (some (s.length, s ++ rest)).bind
          (fun r => (takeBytes r.1 r.2).bind fun r2 => some (WireNode.str r2.1, r2.2)) =
          (takeBytes s.length (s ++ rest)).bind fun r2 => some (WireNode.str r2.1, r2.2) from rfl]
        rw [takeBytes_append]
        rfl
      · rw [if_neg h3]
        simp only [List.cons_append, parseW]
        norm_num
        rw [readBE_beBytes0 4 s.length (s ++ rest) (by omega)]
        rw [show (some (s.length, s ++ rest)).bind
          (fun r => (takeBytes r.1 r.2).bind fun r2 => some (WireNode.str r2.1, r2.2)) =
          (takeBytes s.length (s ++ rest)).bind fun r2 => some (WireNode.str r2.1, r2.2) from rfl]
        rw [takeBytes_append]
        rfl

theorem parseW_encBin (f : Nat) (s : Str) (rest : List Nat) (h : s.length < 2 ^ 32) :
    parseW (f + 1) ((encBinHeader s.length ++ s) ++ rest) = some (.bin s, rest) := by
  rw [List.append_assoc]
  unfold encBinHeader
  by_cases h1 : s.length < 256
  · rw [if_pos h1]
    simp only [List.cons_append, parseW]
    norm_num [readBE]
    rw [takeBytes_append]
    rfl
  · rw [if_neg h1]
    by_cases h2 : s.length < 2 ^ 16
    · rw [if_pos h2]
      simp only [List.cons_append, parseW]
      norm_num
      rw [readBE_beBytes0 2 s.length (s ++ rest) (by omega)]
      rw [show (some (s.length, s ++ rest)).bind
        (fun r => (takeBytes r.1 r.2).bind fun r2 => some (WireNode.bin r2.1, r2.2)) =
        (takeBytes s.length (s ++ rest)).bind fun r2 => some (WireNode.bin r2.1, r2.2) from rfl]
      rw [takeBytes_append]
      rfl
    · rw [if_neg h2]
      simp only [List.cons_append, parseW]
      norm_num
      rw [readBE_beBytes0 4 s.length (s ++ rest) (by omega)]
      rw [show (some (s.length, s ++ rest)).bind
        (fun r => (takeBytes r.1 r.2).bind fun r2 => some (WireNode.bin r2.1, r2.2)) =
        (takeBytes s.length (s ++ rest)).bind fun r2 => some (WireNode.bin r2.1, r2.2) from rfl]
      rw [takeBytes_append]
      rfl

theorem wfWireList_mem : ∀ {ws : List WireNode}, wfWireList ws = true →
    ∀ {w : WireNode}, w ∈ ws → wfWire w = true := by
  intro ws
  induction ws with
  | nil => intro _ w hw; cases hw
  | cons x xs ih =>
    intro h w hw
    rw [wfWireList] at h
    simp only [Bool.and_eq_true] at h
    rcases List.mem_cons.mp hw with rfl | hmem
    · exact h.1
    · exact ih h.2 hmem

theorem wfWireEntries_mem : ∀ {es : List (WireNode × WireNode)}, wfWireEntries es = true →
    ∀ {k v : WireNode}, (k, v) ∈ es → wfWire k = true ∧ wfWire v = true := by
  intro es
  induction es with
  | nil => intro _ k v hw; cases hw
  | cons x xs ih =>
    intro h k v hw
    match x, h with
    | (k0, v0), h =>
      rw [wfWireEntries] at h
      simp only [Bool.and_eq_true] at h
      rcases List.mem_cons.mp hw with heq | hmem
      · cases heq
        exact ⟨h.1.1, h.1.2⟩
      · exact ih h.2 hmem

theorem wireDepthList_mem : ∀ {ws : List WireNode} {w : WireNode}, w ∈ ws →
    wireDepth w ≤ wireDepthList ws := by
  intro ws
  induction ws with
  | nil => intro w hw; cases hw
  | cons x xs ih =>
    intro w hw
    rw [wireDepthList]
    rcases List.mem_cons.mp hw with rfl | hmem
    · exact le_max_left _ _
    · exact le_trans (ih hmem) (le_max_right _ _)

theorem wireDepthEntries_mem : ∀ {es : List (WireNode × WireNode)} {k v : WireNode},
    (k, v) ∈ es → wireDepth k ≤ wireDepthEntries es ∧ wireDepth v ≤ wireDepthEntries es := by
  intro es
  induction es with
  | nil => intro k v hw; cases hw
  | cons x xs ih =>
    intro k v hw
    match x with
    | (k0, v0) =>
      rw [wireDepthEntries]
      rcases List.mem_cons.mp hw with heq | hmem
      · cases heq
        constructor
        · exact le_trans (le_max_left _ _) (le_max_left _ _)
        · exact le_trans (le_max_right _ _) (le_max_left _ _)
      · exact ⟨le_trans (ih hmem).1 (le_max_right _ _),
          le_trans (ih hmem).2 (le_max_right _ _)⟩

theorem parseItems_encodeList (f : Nat) : ∀ (items : List WireNode) (rest : List Nat),
    (∀ w ∈ items, ∀ r : List Nat, parseW f (encodeWire w ++ r) = some (w, r)) →
    parseItems (parseW f) items.length (encodeList items ++ rest) = some (items, rest) := by
  intro items
  induction items with
  | nil => intro rest _; rw [encodeList]; rfl
  | cons w ws ih =>
    intro rest h
    rw [encodeList, List.length_cons]
    rw [parseItems, List.append_assoc]
    rw [h w (by simp) (encodeList ws ++ rest)]
    have hrec := ih rest fun w2 hw2 r => h w2 (by simp [hw2]) r
    simp only [Option.bind_eq_bind, Option.some_bind]
    rw [hrec]
    rfl

theorem parseEntries_encodeEntries (f : Nat) :
    ∀ (es : List (WireNode × WireNode)) (rest : List Nat),
    (∀ e ∈ es, (∀ r : List Nat, parseW f (encodeWire e.1 ++ r) = some (e.1, r)) ∧
      (∀ r : List Nat, parseW f (encodeWire e.2 ++ r) = some (e.2, r))) →
    parseEntries (parseW f) es.length (encodeEntries es ++ rest) = some (es, rest) := by
  intro es
  induction es with
  | nil => intro rest _; rw [encodeEntries]; rfl
  | cons e es2 ih =>
    intro rest h
    match e with
    | (k, v) =>
      rw [encodeEntries, List.length_cons]
      rw [parseEntries, List.append_assoc, List.append_assoc]
      rw [(h (k, v) (by simp)).1 (encodeWire v ++ (encodeEntries es2 ++ rest))]
      simp only [Option.bind_eq_bind, Option.some_bind]
      rw [(h (k, v) (by simp)).2 (encodeEntries es2 ++ rest)]
      simp only [Option.some_bind]
      rw [ih rest fun e2 he2 => h e2 (by simp [he2])]
      rfl

theorem wireDepth_pos : ∀ w : WireNode, 0 < wireDepth w := by
  intro w
  cases w <;> simp [wireDepth]

/-- Parsing inverts encoding: any well-formed wire value, encoded and followed
by arbitrary trailing bytes, parses back to itself with the trailing bytes left
over, given fuel at least its nesting depth. -/
theorem parseW_encodeWire : ∀ (fuel : Nat) (w : WireNode) (rest : List Nat),
    wfWire w = true → wireDepth w ≤ fuel →
    parseW fuel (encodeWire w ++ rest) = some (w, rest) := by
  intro fuel
  induction fuel with
  | zero =>
    intro w rest _ hd
    exact absurd hd (by have := wireDepth_pos w; omega)
  | succ f ih =>
    intro w rest hwf hd
    cases w with
    | nil =>
      rw [encodeWire]
      simp [parseW]
    | bool b =>
      rw [encodeWire]
      cases b <;> simp [parseW]
    | int i =>
      rw [encodeWire]
      rw [wfWire] at hwf
      simp only [decide_eq_true_eq] at hwf
      rw [if_neg (by omega)]
      exact parseW_encNegInt f i rest hwf.1 hwf.2
    | uint n =>
      rw [encodeWire]
      rw [wfWire] at hwf
      simp only [decide_eq_true_eq] at hwf
      exact parseW_encUint f n rest hwf
    | float bits =>
      rw [encodeWire]
      rw [wfWire] at hwf
      simp only [decide_eq_true_eq] at hwf
      exact parseW_encFloat f bits rest hwf
    | double bits =>
      rw [encodeWire]
      rw [wfWire] at hwf
      simp only [decide_eq_true_eq] at hwf
      exact parseW_encDouble f bits rest hwf
    | str s =>
      rw [encodeWire]
      rw [wfWire] at hwf
      simp only [Bool.and_eq_true, decide_eq_true_eq] at hwf
      exact parseW_encStr f s rest hwf.1
    | bin s =>
      rw [encodeWire]
      rw [wfWire] at hwf
      simp only [Bool.and_eq_true, decide_eq_true_eq] at hwf
      exact parseW_encBin f s rest hwf.1
    | arr items =>
      rw [encodeWire]
      rw [wfWire] at hwf
      simp only [Bool.and_eq_true, decide_eq_true_eq] at hwf
      rw [wireDepth] at hd
      have hdl : wireDepthList items ≤ f := by omega
      have helem : ∀ w ∈ items, ∀ r : List Nat,
          parseW f (encodeWire w ++ r) = some (w, r) := by
        intro w hw r
        exact ih w r (wfWireList_mem hwf.2 hw) (le_trans (wireDepthList_mem hw) hdl)
      unfold encArrHeader
      by_cases h1 : items.length < 16
      · rw [if_pos h1]
        simp only [List.cons_append, List.nil_append, List.append_assoc, parseW]
        rw [if_neg (by omega), if_neg (by omega), if_pos (by omega)]
        rw [show 0x90 + items.length - 0x90 = items.length by omega]
        rw [parseItems_encodeList f items rest helem]
        rfl
      · rw [if_neg h1]
        by_cases h2 : items.length < 2 ^ 16
        · rw [if_pos h2]
          simp only [List.cons_append, List.append_assoc, parseW]
          norm_num
          rw [readBE_beBytes0 2 items.length (encodeList items ++ rest) (by omega)]
          simp only [Option.bind_eq_bind, Option.some_bind]
          rw [parseItems_encodeList f items rest helem]
          rfl
        · rw [if_neg h2]
          simp only [List.cons_append, List.append_assoc, parseW]
          norm_num
          rw [readBE_beBytes0 4 items.length (encodeList items ++ rest) (by omega)]
          simp only [Option.bind_eq_bind, Option.some_bind]
          rw [parseItems_encodeList f items rest helem]
          rfl
    | map entries =>
      rw [encodeWire]
      rw [wfWire] at hwf
      simp only [Bool.and_eq_true, decide_eq_true_eq] at hwf
      rw [wireDepth] at hd
      have hdl : wireDepthEntries entries ≤ f := by omega
      have helem : ∀ e ∈ entries,
          (∀ r : List Nat, parseW f (encodeWire e.1 ++ r) = some (e.1, r)) ∧
          (∀ r : List Nat, parseW f (encodeWire e.2 ++ r) = some (e.2, r)) := by
        intro e he
        match e, he with
        | (k, v), he =>
          have hwfe := wfWireEntries_mem hwf.2 he
          have hde := wireDepthEntries_mem he
          exact ⟨fun r => ih k r hwfe.1 (le_trans hde.1 hdl),
            fun r => ih v r hwfe.2 (le_trans hde.2 hdl)⟩
      unfold encMapHeader
      by_cases h1 : entries.length < 16
      · rw [if_pos h1]
        simp only [List.cons_append, List.nil_append, List.append_assoc, parseW]
        rw [if_neg (by omega), if_pos (by omega)]
        rw [show 0x80 + entries.length - 0x80 = entries.length by omega]
        rw [parseEntries_encodeEntries f entries rest helem]
        rfl
      · rw [if_neg h1]
        by_cases h2 : entries.length < 2 ^ 16
        · rw [if_pos h2]
          simp only [List.cons_append, List.append_assoc, parseW]
          norm_num
          rw [readBE_beBytes0 2 entries.length (encodeEntries entries ++ rest) (by omega)]
          simp only [Option.bind_eq_bind, Option.some_bind]
          rw [parseEntries_encodeEntries f entries rest helem]
          rfl
        · rw [if_neg h2]
          simp only [List.cons_append, List.append_assoc, parseW]
          norm_num
          rw [readBE_beBytes0 4 entries.length (encodeEntries entries ++ rest) (by omega)]
          simp only [Option.bind_eq_bind, Option.some_bind]
          rw [parseEntries_encodeEntries f entries rest helem]
          rfl

theorem encUint_length_pos (n : Nat) : 0 < (encUint n).length := by
  unfold encUint
  split_ifs <;> simp [beBytes]

theorem encNegInt_length_pos (i : Int) : 0 < (encNegInt i).length := by
  unfold encNegInt
  split_ifs <;> simp [beBytes]

theorem encStrHeader_length_pos (n : Nat) : 0 < (encStrHeader n).length := by
  unfold encStrHeader
  split_ifs <;> simp [beBytes]

theorem encBinHeader_length_pos (n : Nat) : 0 < (encBinHeader n).length := by
  unfold encBinHeader
  split_ifs <;> simp [beBytes]

theorem encArrHeader_length_pos (n : Nat) : 0 < (encArrHeader n).length := by
  unfold encArrHeader
  split_ifs <;> simp [beBytes]

theorem encMapHeader_length_pos (n : Nat) : 0 < (encMapHeader n).length := by
  unfold encMapHeader
  split_ifs <;> simp [beBytes]

theorem depthList_le_encList (items : List WireNode)
    (h : ∀ w ∈ items, wireDepth w ≤ (encodeWire w).length) :
    wireDepthList items ≤ (encodeList items).length := by
  induction items with
  | nil => simp [wireDepthList, encodeList]
  | cons x xs ih =>
    rw [wireDepthList, encodeList]
    simp only [List.length_append]
    have hx := h x (by simp)
    have hxs := ih fun w hw => h w (by simp [hw])
    omega

theorem depthEntries_le_encEntries (es : List (WireNode × WireNode))
    (h : ∀ e ∈ es, wireDepth e.1 ≤ (encodeWire e.1).length ∧
      wireDepth e.2 ≤ (encodeWire e.2).length) :
    wireDepthEntries es ≤ (encodeEntries es).length := by
  induction es with
  | nil => simp [wireDepthEntries, encodeEntries]
  | cons e es2 ih =>
    match e with
    | (k, v) =>
      rw [wireDepthEntries, encodeEntries]
      simp only [List.length_append]
      have hk := (h (k, v) (by simp)).1
      have hv := (h (k, v) (by simp)).2
      have hes := ih fun e2 he2 => h e2 (by simp [he2])
      simp only at hk hv
      omega

theorem wireDepth_le_encLength_aux : ∀ (n : Nat) (w : WireNode), sizeOf w ≤ n →
    wireDepth w ≤ (encodeWire w).length := by
  intro n
  induction n with
  | zero =>
    intro w h
    cases w <;> simp_arith at h
  | succ n ih =>
    intro w h
    cases w with
    | nil => simp [wireDepth, encodeWire]
    | bool b => cases b <;> simp [wireDepth, encodeWire]
    | int i =>
      have h1 := encUint_length_pos i.toNat
      have h2 := encNegInt_length_pos i
      have hw : wireDepth (WireNode.int i) = 1 := by simp [wireDepth]
      rw [hw, encodeWire]
      split_ifs <;> omega
    | uint m =>
      have := encUint_length_pos m
      have hw : wireDepth (WireNode.uint m) = 1 := by simp [wireDepth]
      rw [hw, encodeWire]
      omega
    | float bits => simp [wireDepth, encodeWire, beBytes]
    | double bits => simp [wireDepth, encodeWire, beBytes]
    | str s =>
      have := encStrHeader_length_pos s.length
      have hw : wireDepth (WireNode.str s) = 1 := by simp [wireDepth]
      rw [hw, encodeWire]
      simp only [List.length_append]
      omega
    | bin s =>
      have := encBinHeader_length_pos s.length
      have hw : wireDepth (WireNode.bin s) = 1 := by simp [wireDepth]
      rw [hw, encodeWire]
      simp only [List.length_append]
      omega
    | arr items =>
      have hhd := encArrHeader_length_pos items.length
      have hsz : sizeOf items ≤ n := by
        have := WireNode.arr.sizeOf_spec items
        omega
      have hlist := depthList_le_encList items fun w hw => by
        have hw2 := List.sizeOf_lt_of_mem hw
        exact ih w (by omega)
      rw [wireDepth, encodeWire]
      simp only [List.length_append]
      omega
    | map entries =>
      have hhd := encMapHeader_length_pos entries.length
      have hsz : sizeOf entries ≤ n := by
        have := WireNode.map.sizeOf_spec entries
        omega
      have hlist := depthEntries_le_encEntries entries fun e he => by
        have he2 := List.sizeOf_lt_of_mem he
        match e, he2 with
        | (k, v), he2 =>
          have hk : sizeOf k ≤ n := by simp_arith at he2 ⊢; omega
          have hv : sizeOf v ≤ n := by simp_arith at he2 ⊢; omega
          exact ⟨ih k hk, ih v hv⟩
      rw [wireDepth, encodeWire]
      simp only [List.length_append]
      omega

theorem wireDepth_le_encLength (w : WireNode) :
    wireDepth w ≤ (encodeWire w).length :=
  wireDepth_le_encLength_aux (sizeOf w) w le_rfl

/-- A buffer holding one encoded well-formed wire value parses back to it. -/
theorem parseBytes_encodeWire (w : WireNode) (h : wfWire w = true) :
    parseBytes (encodeWire w) = some w := by
  unfold parseBytes
  have hlen := wireDepth_le_encLength w
  have hp := parseW_encodeWire ((encodeWire w).length + 1) w [] h (by omega)
  rw [List.append_nil] at hp
  rw [hp]
  rfl

/-! ## Round trip of a serialized dictionary -/

theorem nodeDouble_double (b : Nat) : nodeDouble (.double b) = b := rfl

theorem wfWireList_map_double (es : List Nat) (h : ∀ b ∈ es, b < 2 ^ 64) :
    wfWireList (es.map WireNode.double) = true := by
  induction es with
  | nil => rw [List.map_nil, wfWireList]
  | cons b bs ih =>
    rw [List.map_cons, wfWireList]
    simp only [Bool.and_eq_true]
    constructor
    · simp only [wfWire, decide_eq_true_eq]
      exact h b (by simp)
    · exact ih fun b2 hb2 => h b2 (by simp [hb2])

theorem wfWireList_map_arr (ess : List (List Nat))
    (h : ∀ es ∈ ess, es.length < 2 ^ 32 ∧ ∀ b ∈ es, b < 2 ^ 64) :
    wfWireList (ess.map fun es => WireNode.arr (es.map WireNode.double)) = true := by
  induction ess with
  | nil => rw [List.map_nil, wfWireList]
  | cons es rest ih =>
    rw [List.map_cons, wfWireList]
    simp only [Bool.and_eq_true]
    constructor
    · rw [wfWire]
      simp only [Bool.and_eq_true]
      constructor
      · simp only [List.length_map, decide_eq_true_eq]
        exact (h es (by simp)).1
      · exact wfWireList_map_double es (h es (by simp)).2
    · exact ih fun es2 he2 => h es2 (by simp [he2])

theorem wfValueToWire (v : CValue) (h : rtSafeValue v = true) :
    wfWire (valueToWire v) = true := by
  cases v with
  | vbool b => rw [valueToWire, wfWire]
  | vi8 i | vi16 i | vi32 i | vi64 i =>
    rw [rtSafeValue] at h
    simp only [decide_eq_true_eq] at h
    rw [valueToWire, intWire]
    split_ifs with h0
    · simp only [wfWire, decide_eq_true_eq]
      omega
    · simp only [wfWire, decide_eq_true_eq]
      omega
  | vu8 n | vu16 n | vu32 n | vu64 n =>
    rw [rtSafeValue] at h
    simp only [decide_eq_true_eq] at h
    simp only [valueToWire, wfWire, decide_eq_true_eq]
    omega
  | vf32 bits =>
    rw [rtSafeValue] at h
    rw [valueToWire, wfWire]
    exact h
  | vf64 bits =>
    rw [rtSafeValue] at h
    rw [valueToWire, wfWire]
    exact h
  | vstr s =>
    rw [rtSafeValue] at h
    rw [valueToWire, wfWire]
    exact h
  | vec2 x y =>
    rw [rtSafeValue] at h
    simp only [decide_eq_true_eq] at h
    rw [valueToWire, wfWire]
    simp only [Bool.and_eq_true]
    exact ⟨by simp, by
      exact wfWireList_map_double [x, y] (by intro b hb; simp at hb; rcases hb with rfl | rfl <;> omega)⟩
  | vec3 x y z =>
    rw [rtSafeValue] at h
    simp only [decide_eq_true_eq] at h
    rw [valueToWire, wfWire]
    simp only [Bool.and_eq_true]
    exact ⟨by simp, by
      exact wfWireList_map_double [x, y, z]
        (by intro b hb; simp at hb; rcases hb with rfl | rfl | rfl <;> omega)⟩
  | quat w x y z =>
    rw [rtSafeValue] at h
    simp only [decide_eq_true_eq] at h
    rw [valueToWire, wfWire]
    simp only [Bool.and_eq_true]
    exact ⟨by simp, by
      exact wfWireList_map_double [w, x, y, z]
        (by intro b hb; simp at hb; rcases hb with rfl | rfl | rfl | rfl <;> omega)⟩
  | mat3 es =>
    rw [rtSafeValue] at h
    simp only [Bool.and_eq_true, decide_eq_true_eq, List.all_eq_true] at h
    rw [valueToWire, wfWire]
    simp only [Bool.and_eq_true]
    constructor
    · simp only [List.length_map, decide_eq_true_eq]
      omega
    · exact wfWireList_map_double es fun b hb => by
        have := h.2 b hb
        simpa using this
  | vecX es =>
    rw [rtSafeValue] at h
    simp only [Bool.and_eq_true, decide_eq_true_eq, List.all_eq_true] at h
    rw [valueToWire, wfWire]
    simp only [Bool.and_eq_true]
    constructor
    · simp only [List.length_map, decide_eq_true_eq]
      omega
    · exact wfWireList_map_double es fun b hb => by
        have := h.2 b hb
        simpa using this
  | vecOfVecX ess =>
    rw [rtSafeValue] at h
    simp only [Bool.and_eq_true, decide_eq_true_eq, List.all_eq_true] at h
    rw [valueToWire, wfWire]
    simp only [Bool.and_eq_true]
    constructor
    · simp only [List.length_map, decide_eq_true_eq]
      omega
    · exact wfWireList_map_arr ess fun es he => by
        have := h.2 es he
        simp only [Bool.and_eq_true, decide_eq_true_eq, List.all_eq_true] at this
        exact ⟨this.1, fun b hb => by have := this.2 b hb; simpa using this⟩

theorem entriesToWire_length : ∀ cs : List (Str × Dict),
    (entriesToWire cs).length = cs.length := by
  intro cs
  induction cs with
  | nil => rw [entriesToWire]; rfl
  | cons e rest ih =>
    match e with
    | (k, c) =>
      rw [entriesToWire]
      simp [ih]

theorem wfWire_dictToWire_aux : ∀ (n : Nat) (d : Dict), sizeOf d ≤ n →
    rtSafe d = true → wfWire (dictToWire d) = true := by
  intro n
  induction n with
  | zero =>
    intro d hsz
    cases d with
    | mk v cs => simp_arith at hsz
  | succ n ih =>
    intro d hsz hsafe
    cases d with
    | mk v cs =>
      cases v with
      | some v0 =>
        rw [dictToWire]
        rw [rtSafe] at hsafe
        exact wfValueToWire v0 hsafe
      | none =>
        rw [dictToWire, rtSafe] at *
        simp only [Bool.and_eq_true, decide_eq_true_eq] at hsafe
        rw [wfWire]
        simp only [Bool.and_eq_true]
        constructor
        · rw [entriesToWire_length]
          simp only [decide_eq_true_eq]
          omega
        · have hsz2 : sizeOf cs ≤ n := by
            have := Dict.mk.sizeOf_spec (none : Option CValue) cs
            simp_arith at hsz
            omega
          have hchild := hsafe.2
          clear hsafe hsz
          induction cs with
          | nil => rw [entriesToWire, wfWireEntries]
          | cons e rest ihc =>
            match e with
            | (k, c) =>
              rw [rtSafeChildren] at hchild
              simp only [Bool.and_eq_true] at hchild
              rw [entriesToWire, wfWireEntries]
              simp only [Bool.and_eq_true]
              refine ⟨⟨?_, ?_⟩, ?_⟩
              · rw [wfWire]
                simp only [Bool.and_eq_true]
                exact hchild.1.1
              · have hszc : sizeOf c ≤ n := by
                  simp_arith at hsz2
                  omega
                exact ih c hszc hchild.1.2
              · exact ihc (by simp_arith at hsz2 ⊢; omega) hchild.2

theorem range_map_getD_double : ∀ es : List Nat,
    (List.range es.length).map
      (fun i => nodeDouble ((es.map WireNode.double).getD i .nil)) = es := by
  intro es
  induction es with
  | nil => simp
  | cons b bs ih =>
    rw [List.length_cons, List.range_succ_eq_map, List.map_cons, List.map_map]
    congr 1

theorem mpackNodeVectorXd_wire (es : List Nat) :
    mpackNodeVectorXd (.arr (es.map WireNode.double)) = .vecX es := by
  rw [mpackNodeVectorXd]
  rw [show nodeArrayLength (.arr (es.map WireNode.double)) = es.length by
    rw [nodeArrayLength]; exact List.length_map es WireNode.double]
  rw [show (fun i => nodeDouble (nodeArrayAt (.arr (es.map WireNode.double)) i)) =
    fun i => nodeDouble ((es.map WireNode.double).getD i .nil) from rfl]
  rw [range_map_getD_double]

theorem mpackNodeMatrix3d_wire (es : List Nat) (h : es.length = 9) :
    mpackNodeMatrix3d (.arr (es.map WireNode.double)) = .mat3 es := by
  rcases es with _ | ⟨e0, es⟩
  · simp at h
  rcases es with _ | ⟨e1, es⟩
  · simp at h
  rcases es with _ | ⟨e2, es⟩
  · simp at h
  rcases es with _ | ⟨e3, es⟩
  · simp at h
  rcases es with _ | ⟨e4, es⟩
  · simp at h
  rcases es with _ | ⟨e5, es⟩
  · simp at h
  rcases es with _ | ⟨e6, es⟩
  · simp at h
  rcases es with _ | ⟨e7, es⟩
  · simp at h
  rcases es with _ | ⟨e8, es⟩
  · simp at h
  rcases es with _ | ⟨e9, es⟩
  · rfl
  · simp only [List.length_cons, List.length_nil] at h
    omega

theorem mapM_readSubVector (ess : List (List Nat)) :
    (ess.map fun es => WireNode.arr (es.map WireNode.double)).mapM readSubVector =
      .ok ess := by
  induction ess with
  | nil => rfl
  | cons es rest ih =>
    rw [List.map_cons, List.mapM_cons]
    rw [show readSubVector (.arr (es.map WireNode.double)) = .ok es by
      rw [readSubVector, List.map_map]
      exact congrArg Except.ok (List.map_id'' (fun b => rfl) es)]
    rw [ih]
    rfl

theorem insertOp_fresh (d : Dict) (key : Str) (v2 : CValue) (hd : d.val = none)
    (habs : findChild d key = none) :
    insertOp d key v2 = .ok (.mk none (d.children ++ [(key, .mk (some v2) [])])) := by
  rw [insertOp, if_neg (by simp [Dict.is_value, hd]), habs, hd]

/-- Inserting the serialized wire form of a round-trip-safe value at a fresh
key re-infers a stored value with the same wire form (the concrete type may
change, e.g. `int` to `unsigned`, `VectorXd` of length 2 to `Vector2d`). -/
theorem insertAtKey_valueToWire (d : Dict) (key : Str) (v : CValue)
    (hv : rtSafeValue v = true) (hd : d.val = none) (habs : findChild d key = none) :
    ∃ v2 : CValue,
      insertAtKey d key (valueToWire v) =
        .ok (.mk none (d.children ++ [(key, .mk (some v2) [])])) ∧
      valueToWire v2 = valueToWire v := by
  cases v with
  | vbool b =>
    refine ⟨.vbool b, ?_, rfl⟩
    rw [valueToWire]
    simp only [insertAtKey, nodeBool]
    exact insertOp_fresh d key _ hd habs
  | vi8 i | vi16 i | vi32 i | vi64 i =>
    rw [rtSafeValue] at hv
    simp only [decide_eq_true_eq] at hv
    rw [valueToWire, intWire]
    by_cases h0 : 0 ≤ i
    · rw [if_pos h0]
      refine ⟨.vu32 i.toNat, ?_, ?_⟩
      · simp only [insertAtKey, nodeUintNative]
        rw [if_pos (by omega)]
        exact insertOp_fresh d key _ hd habs
      · rw [valueToWire]
    · rw [if_neg h0]
      refine ⟨.vi32 i, ?_, ?_⟩
      · simp only [insertAtKey, nodeIntNative]
        rw [if_pos (by omega)]
        exact insertOp_fresh d key _ hd habs
      · rw [valueToWire, intWire, if_neg h0]
  | vu8 n | vu16 n | vu32 n | vu64 n =>
    rw [rtSafeValue] at hv
    simp only [decide_eq_true_eq] at hv
    rw [valueToWire]
    refine ⟨.vu32 n, ?_, rfl⟩
    simp only [insertAtKey, nodeUintNative]
    rw [if_pos (by omega)]
    exact insertOp_fresh d key _ hd habs
  | vf32 bits =>
    refine ⟨.vf32 bits, ?_, rfl⟩
    rw [valueToWire]
    simp only [insertAtKey, nodeFloat]
    exact insertOp_fresh d key _ hd habs
  | vf64 bits =>
    refine ⟨.vf64 bits, ?_, rfl⟩
    rw [valueToWire]
    simp only [insertAtKey, nodeDouble]
    exact insertOp_fresh d key _ hd habs
  | vstr s =>
    refine ⟨.vstr s, ?_, rfl⟩
    rw [valueToWire]
    simp only [insertAtKey]
    exact insertOp_fresh d key _ hd habs
  | vec2 x y =>
    refine ⟨.vec2 x y, ?_, rfl⟩
    rw [valueToWire]
    simp only [insertAtKey]
    norm_num
    exact insertOp_fresh d key _ hd habs
  | vec3 x y z =>
    refine ⟨.vec3 x y z, ?_, rfl⟩
    rw [valueToWire]
    simp only [insertAtKey]
    norm_num
    exact insertOp_fresh d key _ hd habs
  | quat w x y z =>
    refine ⟨.quat w x y z, ?_, rfl⟩
    rw [valueToWire]
    simp only [insertAtKey]
    norm_num
    exact insertOp_fresh d key _ hd habs
  | mat3 es =>
    rw [rtSafeValue] at hv
    simp only [Bool.and_eq_true, decide_eq_true_eq] at hv
    have h9 := hv.1
    rcases es with _ | ⟨e, es2⟩
    · simp at h9
    refine ⟨.mat3 (e :: es2), ?_, rfl⟩
    rw [valueToWire]
    have h9b : es2.length + 1 = 9 := by simpa using h9
    simp only [insertAtKey, List.map_cons, List.length_cons, List.length_map, nodeArrayAt,
      List.getD_cons_zero]
    rw [show (WireNode.double e :: es2.map WireNode.double) =
      (e :: es2).map WireNode.double from rfl]
    rw [mpackNodeMatrix3d_wire (e :: es2) h9]
    split_ifs <;> first
      | exact insertOp_fresh d key _ hd habs
      | (exfalso; first | assumption | omega)
  | vecX es =>
    rw [rtSafeValue] at hv
    simp only [Bool.and_eq_true, decide_eq_true_eq] at hv
    rcases es with _ | ⟨e, es2⟩
    · simp at hv
    rw [valueToWire]
    by_cases h2 : (e :: es2).length = 2
    · rcases es2 with _ | ⟨b, t⟩
      · simp at h2
      rcases t with _ | ⟨c, t⟩
      · refine ⟨.vec2 e b, ?_, rfl⟩
        simp only [insertAtKey]
        norm_num
        exact insertOp_fresh d key _ hd habs
      · simp at h2
    · by_cases h3 : (e :: es2).length = 3
      · rcases es2 with _ | ⟨b, t⟩
        · simp at h3
        rcases t with _ | ⟨c, t⟩
        · simp at h3
        rcases t with _ | ⟨e4, t⟩
        · refine ⟨.vec3 e b c, ?_, rfl⟩
          simp only [insertAtKey]
          norm_num
          exact insertOp_fresh d key _ hd habs
        · simp at h3
      · by_cases h4 : (e :: es2).length = 4
        · rcases es2 with _ | ⟨b, t⟩
          · simp at h4
          rcases t with _ | ⟨c, t⟩
          · simp at h4
          rcases t with _ | ⟨e4, t⟩
          · simp at h4
          rcases t with _ | ⟨e5, t⟩
          · refine ⟨.quat e b c e4, ?_, rfl⟩
            simp only [insertAtKey]
            norm_num
            exact insertOp_fresh d key _ hd habs
          · simp at h4
        · simp only [List.length_cons] at h2 h3 h4
          by_cases h9 : es2.length + 1 = 9
          · refine ⟨.mat3 (e :: es2), ?_, rfl⟩
            simp only [insertAtKey, List.map_cons, List.length_cons, List.length_map,
              nodeArrayAt, List.getD_cons_zero]
            rw [show (WireNode.double e :: es2.map WireNode.double) =
              (e :: es2).map WireNode.double from rfl]
            rw [mpackNodeMatrix3d_wire (e :: es2) (by simpa using h9)]
            split_ifs <;> first
              | exact insertOp_fresh d key _ hd habs
              | (exfalso; first | assumption | omega)
          · refine ⟨.vecX (e :: es2), ?_, rfl⟩
            simp only [insertAtKey, List.map_cons, List.length_cons, List.length_map,
              nodeArrayAt, List.getD_cons_zero]
            rw [show (WireNode.double e :: es2.map WireNode.double) =
              (e :: es2).map WireNode.double from rfl]
            rw [mpackNodeVectorXd_wire (e :: es2)]
            split_ifs <;> first
              | exact insertOp_fresh d key _ hd habs
              | (exfalso; first | assumption | omega)
  | vecOfVecX ess =>
    rw [rtSafeValue] at hv
    simp only [Bool.and_eq_true, decide_eq_true_eq] at hv
    rcases ess with _ | ⟨es0, rest⟩
    · simp at hv
    refine ⟨.vecOfVecX (es0 :: rest), ?_, rfl⟩
    rw [valueToWire]
    simp only [insertAtKey, List.map_cons, List.length_cons, List.length_map, nodeArrayAt,
      List.getD_cons_zero]
    rw [show (WireNode.arr (List.map WireNode.double es0) ::
      List.map (fun es => WireNode.arr (List.map WireNode.double es)) rest) =
      List.map (fun es => WireNode.arr (List.map WireNode.double es)) (es0 :: rest) from rfl]
    rw [mapM_readSubVector (es0 :: rest)]
    split_ifs <;> first
      | exact insertOp_fresh d key _ hd habs
      | (exfalso; first | assumption | omega)


theorem findChild_none_of_not_mem (cs : List (Str × Dict)) (k : Str)
    (h : k ∉ cs.map Prod.fst) : findChild (.mk none cs) k = none := by
  simp only [findChild, Dict.children, Option.map_eq_none', List.find?_eq_none, beq_iff_eq]
  intro x hx he
  exact h (he ▸ List.mem_map_of_mem Prod.fst hx)

theorem okBind {α β : Type} (a : α) (f : α → Except Err β) :
    (do
      let x ← (Except.ok a : Except Err α)
      f x) = f a := rfl

theorem deserializeEntries_roundtrip_aux : ∀ (n : Nat) (cs acc : List (Str × Dict)),
    sizeOf cs ≤ n → rtSafeChildren cs = true →
    ((acc ++ cs).map Prod.fst).Nodup →
    ∃ cs2 : List (Str × Dict),
      deserializeEntries (.mk none acc) (entriesToWire cs) = .ok (.mk none (acc ++ cs2)) ∧
      entriesToWire cs2 = entriesToWire cs ∧
      sameShapeChildren cs2 cs = true ∧
      cs2.map Prod.fst = cs.map Prod.fst := by
  intro n
  induction n with
  | zero =>
    intro cs acc hsz
    cases cs <;> simp_arith at hsz
  | succ n ih =>
    intro cs acc hsz hsafe hnodup
    cases cs with
    | nil =>
      refine ⟨[], ?_, rfl, rfl, rfl⟩
      rw [entriesToWire, deserializeEntries, List.append_nil]
    | cons e rest =>
      obtain ⟨k, c⟩ := e
      have hknotacc : k ∉ acc.map Prod.fst := by
        intro hk
        rw [List.map_append] at hnodup
        have := (List.nodup_append.mp hnodup).2.2
        exact this hk (by simp)
      have hfind : findChild (.mk none acc) k = none :=
        findChild_none_of_not_mem acc k hknotacc
      rw [rtSafeChildren] at hsafe
      simp only [Bool.and_eq_true] at hsafe
      obtain ⟨c_val, c_ch⟩ := c
      cases c_val with
      | some v =>
        have hv : rtSafeValue v = true := by
          have := hsafe.1.2
          rwa [rtSafe] at this
        obtain ⟨v2, hins, hwire⟩ :=
          insertAtKey_valueToWire (.mk none acc) k v hv rfl hfind
        have hacc2 : ((acc ++ [(k, Dict.mk (some v2) [])]) ++ rest).map Prod.fst =
            ((acc ++ (k, Dict.mk (some v) c_ch) :: rest).map Prod.fst) := by
          simp
        obtain ⟨cs2, hrec, hwires, hshapes, hkeys⟩ :=
          ih rest (acc ++ [(k, .mk (some v2) [])])
            (by simp_arith at hsz ⊢; omega) hsafe.2 (by rw [hacc2]; exact hnodup)
        refine ⟨(k, .mk (some v2) []) :: cs2, ?_, ?_, ?_, ?_⟩
        · rw [entriesToWire, deserializeEntries]
          rw [show nodeStrBytes (WireNode.str k) = k from rfl, hfind]
          rw [show dictToWire (Dict.mk (some v) c_ch) = valueToWire v from rfl]
          rw [Dict.children] at hins
          rw [hins, okBind, hrec]
          simp
        · rw [entriesToWire, hwires, entriesToWire]
          rw [show dictToWire (Dict.mk (some v2) []) = valueToWire v2 from rfl,
            show dictToWire (Dict.mk (some v) c_ch) = valueToWire v from rfl, hwire]
        · rw [sameShapeChildren]
          simp only [Bool.and_eq_true, beq_self_eq_true, true_and]
          exact ⟨rfl, hshapes⟩
        · simp [hkeys]
      | none =>
        have hcsafe : rtSafe (Dict.mk none c_ch) = true := hsafe.1.2
        rw [rtSafe] at hcsafe
        simp only [Bool.and_eq_true, decide_eq_true_eq] at hcsafe
        obtain ⟨cs2c, hrecc, hwirec, hshapec, hkeysc⟩ :=
          ih c_ch [] (by simp_arith at hsz ⊢; omega) hcsafe.2
            (by simpa using hcsafe.1.2)
        obtain ⟨cs2, hrec, hwires, hshapes, hkeys⟩ :=
          ih rest (acc ++ [(k, .mk none cs2c)])
            (by simp_arith at hsz ⊢; omega) hsafe.2
            (by
              have heq2 : ((acc ++ [(k, Dict.mk none cs2c)]) ++ rest).map Prod.fst =
                  ((acc ++ (k, Dict.mk none c_ch) :: rest).map Prod.fst) := by simp
              rw [heq2]
              exact hnodup)
        refine ⟨(k, .mk none cs2c) :: cs2, ?_, ?_, ?_, ?_⟩
        · rw [entriesToWire, deserializeEntries]
          rw [show nodeStrBytes (WireNode.str k) = k from rfl, hfind]
          rw [show dictToWire (Dict.mk none c_ch) = .map (entriesToWire c_ch) from rfl]
          rw [show insertAtKey (Dict.mk none acc) k (.map (entriesToWire c_ch)) =
            (do
              let c2 ← deserializeNode ((findChild (Dict.mk none acc) k).getD dEmpty)
                (.map (entriesToWire c_ch))
              Except.ok (putChild (Dict.mk none acc) k c2)) by
            simp only [insertAtKey]
            rw [if_neg (by simp [Dict.is_value, Dict.val])]]
          rw [hfind]
          rw [show (Option.getD (none : Option Dict) dEmpty) = dEmpty from rfl]
          rw [show deserializeNode dEmpty (.map (entriesToWire c_ch)) =
            deserializeEntries dEmpty (entriesToWire c_ch) by
            simp only [deserializeNode]
            rfl]
          rw [show deserializeEntries dEmpty (entriesToWire c_ch) =
            deserializeEntries (.mk none []) (entriesToWire c_ch) from rfl]
          rw [hrecc, List.nil_append, okBind]
          rw [show putChild (Dict.mk none acc) k (Dict.mk none cs2c) =
            Dict.mk none (acc ++ [(k, Dict.mk none cs2c)]) by
            rw [putChild, if_neg (by simp [Dict.has, hfind]), Dict.val, Dict.children]]
          rw [okBind, hrec]
          simp
        · rw [entriesToWire, hwires, entriesToWire]
          rw [show dictToWire (Dict.mk none cs2c) = .map (entriesToWire cs2c) from rfl,
            show dictToWire (Dict.mk none c_ch) = .map (entriesToWire c_ch) from rfl,
            hwirec]
        · rw [sameShapeChildren]
          simp only [Bool.and_eq_true, beq_self_eq_true, true_and]
          exact ⟨by rw [sameShape]; exact hshapec, hshapes⟩
        · simp [hkeys]

/-- Serializing a round-trip-safe map-rooted dictionary and merging the bytes
into a fresh dictionary succeeds and reproduces a dictionary with the same
shape and the same serialization. -/
theorem deserialize_serialize (T : Dict) (hsafe : rtSafe T = true)
    (hmap : T.val = none) :
    ∃ T2 : Dict, deserializeBytes dEmpty (serialize T) = .ok T2 ∧
      serialize T2 = serialize T ∧ sameShape T2 T = true := by
  obtain ⟨tv, tcs⟩ := T
  rw [Dict.val] at hmap
  subst hmap
  have hwf : wfWire (dictToWire (Dict.mk none tcs)) = true :=
    wfWire_dictToWire_aux (sizeOf (Dict.mk none tcs)) _ le_rfl hsafe
  rw [rtSafe] at hsafe
  simp only [Bool.and_eq_true, decide_eq_true_eq] at hsafe
  obtain ⟨cs2, hrec, hwires, hshapes, hkeys⟩ :=
    deserializeEntries_roundtrip_aux (sizeOf tcs) tcs [] le_rfl hsafe.2
      (by simpa using hsafe.1.2)
  refine ⟨.mk none cs2, ?_, ?_, ?_⟩
  · rw [deserializeBytes, serialize]
    rw [parseBytes_encodeWire _ hwf]
    show deserializeNode dEmpty (dictToWire (Dict.mk none tcs)) =
      Except.ok (Dict.mk none cs2)
    rw [show dictToWire (Dict.mk none tcs) = .map (entriesToWire tcs) from rfl]
    rw [show deserializeNode dEmpty (.map (entriesToWire tcs)) =
      deserializeEntries dEmpty (entriesToWire tcs) by
      simp only [deserializeNode]
      rfl]
    rw [show deserializeEntries dEmpty (entriesToWire tcs) =
      deserializeEntries (.mk none []) (entriesToWire tcs) from rfl]
    rw [hrec, List.nil_append]
  · rw [serialize, serialize]
    rw [show dictToWire (Dict.mk none cs2) = .map (entriesToWire cs2) from rfl,
      show dictToWire (Dict.mk none tcs) = .map (entriesToWire tcs) from rfl, hwires]
  · rw [sameShape]
    exact hshapes

theorem findChild_self (cs : List (Str × Dict)) (hnd : (cs.map Prod.fst).Nodup) :
    ∀ e ∈ cs, findChild (.mk none cs) e.1 = some e.2 := by
  induction cs with
  | nil => intro e he; cases he
  | cons x rest ih =>
    intro e he
    rcases List.mem_cons.mp he with rfl | hmem
    · simp [findChild, Dict.children]
    · have hne : x.1 ≠ e.1 := by
        intro hx
        rw [List.map_cons] at hnd
        have := (List.nodup_cons.mp hnd).1
        exact this (hx ▸ List.mem_map_of_mem Prod.fst hmem)
      have := ih (List.nodup_cons.mp (by rw [List.map_cons] at hnd; exact hnd)).2 e hmem
      simp only [findChild, Dict.children] at this ⊢
      rw [List.find?_cons_of_neg _ (by simpa using fun hx => hne (by exact hx.symm ▸ rfl))]
      exact this

theorem uniqChildren_mem : ∀ {cs : List (Str × Dict)}, uniqChildren cs = true →
    ∀ {e : Str × Dict}, e ∈ cs → uniqKeys e.2 = true := by
  intro cs
  induction cs with
  | nil => intro _ e he; cases he
  | cons x rest ih =>
    intro h e he
    obtain ⟨k0, c0⟩ := x
    rw [uniqChildren] at h
    simp only [Bool.and_eq_true] at h
    rcases List.mem_cons.mp he with rfl | hmem
    · exact h.1
    · exact ih h.2 hmem

theorem diffEntries_skip : ∀ (entries : List (Str × Dict)) (b result : Dict),
    (∀ e ∈ entries, findChild b e.1 = some e.2) →
    (∀ e ∈ entries, difference e.2 e.2 = .ok dEmpty) →
    diffEntries b entries result = .ok result := by
  intro entries
  induction entries with
  | nil => intro b result _ _; rw [diffEntries]
  | cons e rest ih =>
    intro b result hfind hdiff
    obtain ⟨k, ac⟩ := e
    have hf : findChild b k = some ac := hfind (k, ac) (by simp)
    have hd2 : difference ac ac = .ok dEmpty := hdiff (k, ac) (by simp)
    rw [diffEntries]
    simp only [hf, hd2, okBind]
    rw [if_pos (show dEmpty.is_empty = true from rfl)]
    exact ih b result (fun e2 he2 => hfind e2 (by simp [he2]))
      (fun e2 he2 => hdiff e2 (by simp [he2]))

theorem difference_self_aux : ∀ (n : Nat) (a : Dict), sizeOf a ≤ n →
    uniqKeys a = true → difference a a = .ok dEmpty := by
  intro n
  induction n with
  | zero =>
    intro a hsz
    obtain ⟨v, cs⟩ := a
    simp_arith at hsz
  | succ n ih =>
    intro a hsz huniq
    obtain ⟨v, cs⟩ := a
    by_cases he : (Dict.mk v cs).is_empty = true
    · rw [difference.eq_def]
      rw [if_pos he]
    · cases v with
      | some v0 =>
        simp only [difference]
        rw [if_neg he]
        rw [if_pos (by rfl : (Dict.mk (some v0) cs).is_value = true)]
        simp
      | none =>
        simp only [difference]
        rw [if_neg he]
        rw [uniqKeys] at huniq
        simp only [Bool.and_eq_true, decide_eq_true_eq] at huniq
        exact diffEntries_skip cs (Dict.mk none cs) dEmpty
          (findChild_self cs huniq.1)
          (fun e he2 => by
            have hsz2 : sizeOf e.2 ≤ n := by
              have h1 := List.sizeOf_lt_of_mem he2
              obtain ⟨k0, c0⟩ := e
              simp_arith at hsz h1 ⊢
              omega
            exact ih e.2 hsz2 (uniqChildren_mem huniq.2 he2))

theorem invChildren_iff : ∀ cs : List (Str × Dict),
    invChildren cs = true ↔ ∀ e ∈ cs, inv e.2 = true := by
  intro cs
  induction cs with
  | nil => simp [invChildren]
  | cons e rest ih =>
    obtain ⟨k, c⟩ := e
    rw [invChildren]
    simp only [Bool.and_eq_true, ih, List.mem_cons]
    constructor
    · rintro ⟨h1, h2⟩ e2 (rfl | hmem)
      · exact h1
      · exact h2 e2 hmem
    · intro h
      exact ⟨h (k, c) (Or.inl rfl), fun e2 he2 => h e2 (Or.inr he2)⟩

theorem inv_of_mk_nil : ∀ v : Option CValue, inv (.mk v []) = true := by
  intro v
  cases v with
  | some v0 => rw [inv]; rfl
  | none => rw [inv, invChildren]

theorem children_eq_nil_of_is_empty (d : Dict) (h : d.is_empty = true) :
    d.children = [] := by
  obtain ⟨v, cs⟩ := d
  simp only [Dict.is_empty, Dict.is_map, Dict.children, Bool.and_eq_true,
    decide_eq_true_eq] at h ⊢
  cases cs with
  | nil => rfl
  | cons e rest => simp at h

theorem inv_findChild {d : Dict} {k : Str} {c : Dict} (hinv : inv d = true)
    (hf : findChild d k = some c) : inv c = true := by
  obtain ⟨v, cs⟩ := d
  simp only [findChild, Dict.children, Option.map_eq_some'] at hf
  obtain ⟨e, he, rfl⟩ := hf
  have hmem := List.mem_of_find?_eq_some he
  cases v with
  | some v0 =>
    rw [inv] at hinv
    rw [List.isEmpty_iff] at hinv
    subst hinv
    cases hmem
  | none =>
    rw [inv] at hinv
    exact (invChildren_iff cs).mp hinv e hmem

theorem inv_setChild {d : Dict} {k : Str} {c : Dict} (hinv : inv d = true)
    (hc : inv c = true) : inv (setChild d k c) = true := by
  obtain ⟨v, cs⟩ := d
  rw [setChild]
  simp only [Dict.val, Dict.children]
  cases v with
  | some v0 =>
    rw [inv] at hinv
    rw [List.isEmpty_iff] at hinv
    subst hinv
    rw [inv]
    rfl
  | none =>
    rw [inv] at hinv ⊢
    rw [invChildren_iff] at hinv ⊢
    intro e he
    obtain ⟨e0, he0, heq⟩ := List.mem_map.mp he
    by_cases hk : e0.1 == k
    · rw [if_pos hk] at heq
      rw [← heq]
      exact hc
    · rw [if_neg hk] at heq
      rw [← heq]
      exact hinv e0 he0

theorem inv_putChild {d : Dict} {k : Str} {c : Dict} (hd : d.val = none)
    (hinv : inv d = true) (hc : inv c = true) : inv (putChild d k c) = true := by
  rw [putChild]
  by_cases hh : d.has k = true
  · rw [if_pos hh]
    exact inv_setChild hinv hc
  · rw [if_neg hh]
    obtain ⟨v, cs⟩ := d
    rw [Dict.val] at hd
    subst hd
    simp only [Dict.val, Dict.children]
    rw [inv] at hinv ⊢
    rw [invChildren_iff] at hinv ⊢
    intro e he
    rcases List.mem_append.mp he with hmem | hmem
    · exact hinv e hmem
    · rw [List.mem_singleton.mp hmem]
      exact hc

theorem inv_insertOp {d : Dict} {k : Str} {v : CValue} {d2 : Dict}
    (hinv : inv d = true) (hok : insertOp d k v = .ok d2) : inv d2 = true := by
  by_cases h1 : d.is_value = true
  · rw [insertOp, if_pos h1] at hok
    cases hok
  · rw [insertOp, if_neg h1] at hok
    cases hf : findChild d k with
    | some child =>
      rw [hf] at hok
      have hok2 : (if child.is_empty = true then
          Except.ok (setChild d k (Dict.mk (some v) child.children))
          else if (child.is_value && Option.map typeTag child.val == some (typeTag v)) = true
          then Except.ok d else Except.error Err.typeError) = Except.ok d2 := hok
      by_cases h2 : child.is_empty = true
      · rw [if_pos h2] at hok2
        have hch : child.children = [] := children_eq_nil_of_is_empty child h2
        rw [hch] at hok2
        cases hok2
        exact inv_setChild hinv (inv_of_mk_nil (some v))
      · rw [if_neg h2] at hok2
        by_cases h3 : (child.is_value && (child.val.map typeTag == some (typeTag v))) = true
        · rw [if_pos h3] at hok2
          cases hok2
          exact hinv
        · rw [if_neg h3] at hok2
          cases hok2
    | none =>
      rw [hf] at hok
      have hok2 : Except.ok (Dict.mk d.val (d.children ++ [(k, Dict.mk (some v) [])]))
          = Except.ok d2 := hok
      cases hok2
      obtain ⟨dv, cs⟩ := d
      have hdv : dv = none := by
        simp only [Dict.is_value, Dict.val, Option.isSome] at h1
        cases dv with
        | some v0 => simp at h1
        | none => rfl
      subst hdv
      simp only [Dict.val, Dict.children]
      rw [inv] at hinv ⊢
      rw [invChildren_iff] at hinv ⊢
      intro e he
      rcases List.mem_append.mp he with hmem | hmem
      · exact hinv e hmem
      · rw [List.mem_singleton.mp hmem]
        exact inv_of_mk_nil (some v)

theorem inv_opParen {d : Dict} {k : Str} {d2 : Dict} (hinv : inv d = true)
    (hok : opParen d k = .ok d2) : inv d2 = true := by
  by_cases h1 : d.is_value = true
  · rw [opParen, if_pos h1] at hok
    cases hok
  · by_cases h2 : d.has k = true
    · rw [opParen, if_neg h1, if_pos h2] at hok
      cases hok
      exact hinv
    · rw [opParen, if_neg h1, if_neg h2] at hok
      cases hok
      obtain ⟨dv, cs⟩ := d
      have hdv : dv = none := by
        simp only [Dict.is_value, Dict.val, Option.isSome] at h1
        cases dv with
        | some v0 => simp at h1
        | none => rfl
      subst hdv
      simp only [Dict.val, Dict.children]
      rw [inv] at hinv ⊢
      rw [invChildren_iff] at hinv ⊢
      intro e he
      rcases List.mem_append.mp he with hmem | hmem
      · exact hinv e hmem
      · rw [List.mem_singleton.mp hmem]
        exact inv_of_mk_nil none

theorem inv_assignOp {d : Dict} {v : CValue} {d2 : Dict} (hinv : inv d = true)
    (hok : assignOp d v = .ok d2) : inv d2 = true := by
  obtain ⟨dv, cs⟩ := d
  rw [assignOp] at hok
  cases dv with
  | none =>
    have hok2 : Except.ok (Dict.mk (some v) []) = Except.ok d2 := hok
    cases hok2
    exact inv_of_mk_nil (some v)
  | some v0 =>
    have hok2 : (if typeTag v0 = typeTag v then
        Except.ok (Dict.mk (some v) (Dict.mk (some v0) cs).children)
        else Except.error Err.typeError) = Except.ok d2 := hok
    by_cases ht : typeTag v0 = typeTag v
    · rw [if_pos ht] at hok2
      cases hok2
      rw [inv] at hinv
      rw [List.isEmpty_iff] at hinv
      simp only [Dict.children] at hinv ⊢
      rw [hinv]
      exact inv_of_mk_nil (some v)
    · rw [if_neg ht] at hok2
      cases hok2

theorem inv_removeOp {d : Dict} {k : Str} (hinv : inv d = true) :
    inv (removeOp d k) = true := by
  rw [removeOp]
  match hf : findChild d k with
  | none => exact hinv
  | some c =>
    obtain ⟨dv, cs⟩ := d
    simp only [Dict.val, Dict.children]
    cases dv with
    | some v0 =>
      rw [inv] at hinv
      rw [List.isEmpty_iff] at hinv
      subst hinv
      rw [inv]
      rfl
    | none =>
      rw [inv] at hinv ⊢
      rw [invChildren_iff] at hinv ⊢
      intro e he
      exact hinv e ((List.eraseP_sublist cs).mem he)

theorem inv_clearOp {d : Dict} : inv (clearOp d) = true := by
  rw [clearOp]
  exact inv_of_mk_nil d.val

theorem errBind {α β : Type} (e : Err) (f : α → Except Err β) :
    (do
      let x ← (Except.error e : Except Err α)
      f x) = Except.error e := rfl

theorem wireNode_sizeOf_pos (w : WireNode) : 0 < sizeOf w := by
  cases w <;> simp_arith

theorem entryList_sizeOf_pos (es : List (WireNode × WireNode)) : 0 < sizeOf es := by
  cases es <;> simp_arith

theorem deserialize_inv_aux : ∀ n : Nat,
    (∀ (d : Dict) (w : WireNode) (d2 : Dict), sizeOf w ≤ n → inv d = true →
      deserializeNode d w = .ok d2 → inv d2 = true) ∧
    (∀ (d : Dict) (es : List (WireNode × WireNode)) (d2 : Dict), sizeOf es ≤ n →
      inv d = true → deserializeEntries d es = .ok d2 → inv d2 = true) ∧
    (∀ (d : Dict) (k : Str) (w : WireNode) (d2 : Dict), sizeOf w ≤ n →
      inv d = true → insertAtKey d k w = .ok d2 → inv d2 = true) := by
  intro n
  induction n with
  | zero =>
    refine ⟨fun d w d2 hsz => absurd hsz ?_, fun d es d2 hsz => absurd hsz ?_,
      fun d k w d2 hsz => absurd hsz ?_⟩
    · have := wireNode_sizeOf_pos w; omega
    · have := entryList_sizeOf_pos es; omega
    · have := wireNode_sizeOf_pos w; omega
  | succ n ih =>
    obtain ⟨ihN, ihE, ihK⟩ := ih
    have hval : ∀ (d d2 : Dict) (v : CValue) (nd : WireNode), d.val = some v →
        inv d = true →
        (do
          let v2 ← readValue v nd
          Except.ok (Dict.mk (some v2) d.children)) = Except.ok d2 →
        inv d2 = true := by
      intro d d2 v nd hd hinv hok
      cases hr : readValue v nd with
      | error e =>
        rw [hr, errBind] at hok
        cases hok
      | ok v2 =>
        rw [hr, okBind] at hok
        cases hok
        obtain ⟨dv, cs⟩ := d
        rw [Dict.val] at hd
        subst hd
        rw [inv] at hinv
        rw [List.isEmpty_iff] at hinv
        simp only [Dict.children] at hinv ⊢
        rw [hinv]
        exact inv_of_mk_nil (some v2)
    have hOther : ∀ (d : Dict) (nd : WireNode) (d2 : Dict), inv d = true →
        (match d.val with
         | some v => do
             let v2 ← readValue v nd
             Except.ok (Dict.mk (some v2) d.children)
         | none => Except.error Err.typeError) = Except.ok d2 →
        inv d2 = true := by
      intro d nd d2 hinv hok
      obtain ⟨dv, cs⟩ := d
      cases dv with
      | some v =>
        have hok2 : (do
            let v2 ← readValue v nd
            Except.ok (Dict.mk (some v2) (Dict.mk (some v) cs).children)) =
            Except.ok d2 := hok
        exact hval (Dict.mk (some v) cs) d2 v nd rfl hinv hok2
      | none =>
        have hok2 : (Except.error Err.typeError : Except Err Dict) = Except.ok d2 := hok
        cases hok2
    have hNode : ∀ (d : Dict) (w : WireNode) (d2 : Dict), sizeOf w ≤ n + 1 →
        inv d = true → deserializeNode d w = .ok d2 → inv d2 = true := by
      intro d w d2 hsz hinv hok
      rw [deserializeNode.eq_def] at hok
      cases w with
      | nil =>
        have hok2 : Except.ok d = Except.ok d2 := hok
        cases hok2
        exact hinv
      | map entries =>
        obtain ⟨dv, cs⟩ := d
        cases dv with
        | some v =>
          have hok2 : (do
              let v2 ← readValue v (.map entries)
              Except.ok (Dict.mk (some v2) (Dict.mk (some v) cs).children)) =
              Except.ok d2 := hok
          exact hval (Dict.mk (some v) cs) d2 v (.map entries) rfl hinv hok2
        | none =>
          have hok2 : deserializeEntries (Dict.mk none cs) entries = Except.ok d2 := hok
          have hsz2 : sizeOf entries ≤ n := by simp_arith at hsz; omega
          exact ihE (Dict.mk none cs) entries d2 hsz2 hinv hok2
      | bool b => exact hOther d _ d2 hinv hok
      | int i => exact hOther d _ d2 hinv hok
      | uint u => exact hOther d _ d2 hinv hok
      | float x => exact hOther d _ d2 hinv hok
      | double x => exact hOther d _ d2 hinv hok
      | str s => exact hOther d _ d2 hinv hok
      | bin bs => exact hOther d _ d2 hinv hok
      | arr items => exact hOther d _ d2 hinv hok
    have hKey : ∀ (d : Dict) (k : Str) (w : WireNode) (d2 : Dict), sizeOf w ≤ n + 1 →
        inv d = true → insertAtKey d k w = .ok d2 → inv d2 = true := by
      intro d k w d2 hsz hinv hok
      rw [insertAtKey.eq_def] at hok
      cases w with
      | bool b => exact inv_insertOp hinv hok
      | int i => exact inv_insertOp hinv hok
      | uint u => exact inv_insertOp hinv hok
      | float x => exact inv_insertOp hinv hok
      | double x => exact inv_insertOp hinv hok
      | str s => exact inv_insertOp hinv hok
      | nil =>
        have hok2 : (Except.error Err.typeError : Except Err Dict) = Except.ok d2 := hok
        cases hok2
      | bin bs =>
        have hok2 : (Except.error Err.typeError : Except Err Dict) = Except.ok d2 := hok
        cases hok2
      | arr items =>
        have hok2 : (if items.length = 0 then (Except.error Err.typeError : Except Err Dict)
            else match nodeArrayAt (.arr items) 0 with
              | .double _ =>
                if items.length = 2 then insertOp d k (mpackNodeVector2d (.arr items))
                else if items.length = 3 then insertOp d k (mpackNodeVector3d (.arr items))
                else if items.length = 4 then insertOp d k (mpackNodeQuaterniond (.arr items))
                else if items.length = 9 then insertOp d k (mpackNodeMatrix3d (.arr items))
                else insertOp d k (mpackNodeVectorXd (.arr items))
              | .arr _ => do
                let vs ← items.mapM readSubVector
                insertOp d k (.vecOfVecX vs)
              | _ => Except.error Err.typeError) = Except.ok d2 := hok
        by_cases h0 : items.length = 0
        · rw [if_pos h0] at hok2
          cases hok2
        · rw [if_neg h0] at hok2
          cases ha : nodeArrayAt (.arr items) 0 <;> rw [ha] at hok2 <;>
            first
            | (have hok3 : (if items.length = 2 then
                    insertOp d k (mpackNodeVector2d (.arr items))
                  else if items.length = 3 then insertOp d k (mpackNodeVector3d (.arr items))
                  else if items.length = 4 then insertOp d k (mpackNodeQuaterniond (.arr items))
                  else if items.length = 9 then insertOp d k (mpackNodeMatrix3d (.arr items))
                  else insertOp d k (mpackNodeVectorXd (.arr items))) = Except.ok d2 := hok2
               split_ifs at hok3 <;> exact inv_insertOp hinv hok3)
            | (have hok3 : (do
                  let vs ← items.mapM readSubVector
                  insertOp d k (.vecOfVecX vs)) = Except.ok d2 := hok2
               cases hm : items.mapM readSubVector with
               | error e =>
                 rw [hm, errBind] at hok3
                 cases hok3
               | ok vs =>
                 rw [hm, okBind] at hok3
                 exact inv_insertOp hinv hok3)
            | (have hok3 : (Except.error Err.typeError : Except Err Dict) =
                  Except.ok d2 := hok2
               cases hok3)
      | map entries =>
        have hok2 : (if d.is_value then (Except.error Err.typeError : Except Err Dict)
            else do
              let c2 ← deserializeNode ((findChild d k).getD dEmpty) (.map entries)
              Except.ok (putChild d k c2)) = Except.ok d2 := hok
        by_cases hv : d.is_value = true
        · rw [if_pos hv] at hok2
          cases hok2
        · rw [if_neg hv] at hok2
          cases hc : deserializeNode ((findChild d k).getD dEmpty) (.map entries) with
          | error e =>
            rw [hc, errBind] at hok2
            cases hok2
          | ok c2 =>
            rw [hc, okBind] at hok2
            cases hok2
            have hchild : inv ((findChild d k).getD dEmpty) = true := by
              cases hf : findChild d k with
              | none => exact inv_of_mk_nil none
              | some c => exact inv_findChild hinv hf
            have hc2 : inv c2 = true := hNode _ _ _ hsz hchild hc
            have hdv : d.val = none := by
              cases hvv : d.val with
              | none => rfl
              | some v0 => exact absurd (by simp [Dict.is_value, hvv]) hv
            exact inv_putChild hdv hinv hc2
    have hEnt : ∀ (d : Dict) (es : List (WireNode × WireNode)) (d2 : Dict),
        sizeOf es ≤ n + 1 → inv d = true → deserializeEntries d es = .ok d2 →
        inv d2 = true := by
      intro d es d2 hsz hinv hok
      rw [deserializeEntries.eq_def] at hok
      cases es with
      | nil =>
        have hok2 : Except.ok d = Except.ok d2 := hok
        cases hok2
        exact hinv
      | cons e rest =>
        obtain ⟨kn, vn⟩ := e
        have hok2 : (match findChild d (nodeStrBytes kn) with
            | none => do
                let d3 ← insertAtKey d (nodeStrBytes kn) vn
                deserializeEntries d3 rest
            | some child => do
                let c2 ← deserializeNode child vn
                deserializeEntries (setChild d (nodeStrBytes kn) c2) rest) =
            Except.ok d2 := hok
        have hszv : sizeOf vn ≤ n := by simp_arith at hsz; omega
        have hszr : sizeOf rest ≤ n := by simp_arith at hsz; omega
        cases hf : findChild d (nodeStrBytes kn) with
        | none =>
          rw [hf] at hok2
          have hok3 : (do
              let d3 ← insertAtKey d (nodeStrBytes kn) vn
              deserializeEntries d3 rest) = Except.ok d2 := hok2
          cases hi : insertAtKey d (nodeStrBytes kn) vn with
          | error e2 =>
            rw [hi, errBind] at hok3
            cases hok3
          | ok d3 =>
            rw [hi, okBind] at hok3
            exact ihE d3 rest d2 hszr (ihK d (nodeStrBytes kn) vn d3 hszv hinv hi) hok3
        | some child =>
          rw [hf] at hok2
          have hok3 : (do
              let c2 ← deserializeNode child vn
              deserializeEntries (setChild d (nodeStrBytes kn) c2) rest) =
              Except.ok d2 := hok2
          cases hc : deserializeNode child vn with
          | error e2 =>
            rw [hc, errBind] at hok3
            cases hok3
          | ok c2 =>
            rw [hc, okBind] at hok3
            have hc2 : inv c2 = true :=
              ihN child vn c2 hszv (inv_findChild hinv hf) hc
            exact ihE (setChild d (nodeStrBytes kn) c2) rest d2 hszr
              (inv_setChild hinv hc2) hok3
    exact ⟨hNode, hEnt, hKey⟩

theorem readValue_map_err (v : CValue) (entries : List (WireNode × WireNode)) :
    readValue v (.map entries) = .error .typeError := by
  cases v <;> rfl

theorem deserializeNode_kind_conflict_scalar (d : Dict) (w : WireNode)
    (hd : d.val = none) (hm : isWireMap w = false) (hn : w ≠ .nil) :
    deserializeNode d w = .error .typeError := by
  obtain ⟨dv, cs⟩ := d
  rw [Dict.val] at hd
  subst hd
  rw [deserializeNode.eq_def]
  cases w with
  | nil => exact absurd rfl hn
  | map entries => rw [isWireMap] at hm; cases hm
  | bool b => rfl
  | int i => rfl
  | uint u => rfl
  | float x => rfl
  | double x => rfl
  | str s => rfl
  | bin bs => rfl
  | arr items => rfl

theorem deserializeNode_kind_conflict_map (d : Dict) (v : CValue)
    (entries : List (WireNode × WireNode)) (hd : d.val = some v) :
    deserializeNode d (.map entries) = .error .typeError := by
  obtain ⟨dv, cs⟩ := d
  rw [Dict.val] at hd
  subst hd
  rw [deserializeNode.eq_def]
  show (do
    let v2 ← readValue v (.map entries)
    Except.ok (Dict.mk (some v2) (Dict.mk (some v) cs).children)) =
    Except.error Err.typeError
  rw [readValue_map_err v entries, errBind]

theorem deserializeNode_val_eq (d : Dict) (v : CValue) (w : WireNode)
    (hd : d.val = some v) (hw : w ≠ .nil) :
    deserializeNode d w = (do
      let v2 ← readValue v w
      Except.ok (Dict.mk (some v2) d.children)) := by
  obtain ⟨dv, cs⟩ := d
  rw [Dict.val] at hd
  subst hd
  rw [deserializeNode.eq_def]
  cases w with
  | nil => exact absurd rfl hw
  | map entries => rfl
  | bool b => rfl
  | int i => rfl
  | uint u => rfl
  | float x => rfl
  | double x => rfl
  | str s => rfl
  | bin bs => rfl
  | arr items => rfl

theorem inv_deserializeNode {d : Dict} {w : WireNode} {d2 : Dict}
    (hinv : inv d = true) (hok : deserializeNode d w = .ok d2) : inv d2 = true :=
  (deserialize_inv_aux (sizeOf w)).1 d w d2 le_rfl hinv hok

theorem inv_deserializeBytes {d : Dict} {data : List Nat} {d2 : Dict}
    (hinv : inv d = true) (hok : deserializeBytes d data = .ok d2) :
    inv d2 = true := by
  rw [deserializeBytes] at hok
  cases hp : parseBytes data with
  | none =>
    rw [hp] at hok
    have hok2 : Except.ok d = Except.ok d2 := hok
    cases hok2
    exact hinv
  | some root =>
    rw [hp] at hok
    exact inv_deserializeNode hinv hok

theorem popAllF_mk_none : ∀ cs : List (Str × Dict),
    popAllF cs.length (.mk none cs) = .ok (cs, .mk none []) := by
  intro cs
  induction cs with
  | nil => rfl
  | cons e rest ih =>
    show popAllF (rest.length + 1) (.mk none (e :: rest)) = _
    rw [popAllF]
    rw [if_neg (by simp [Dict.is_empty, Dict.is_map, Dict.val, Dict.children])]
    have hpop : popitem (.mk none (e :: rest)) = .ok (e, .mk none rest) := by
      rw [popitem, if_neg (by simp [Dict.is_value, Dict.val])]
      rfl
    rw [hpop]
    have hok2 : (do
        let (es, dF) ← popAllF rest.length (Dict.mk none rest)
        Except.ok (e :: es, dF)) = (Except.ok (e :: rest, Dict.mk none []) :
        Except Err (List (Str × Dict) × Dict)) := by
      rw [ih, okBind]
    exact hok2

theorem popAll_mk_none (cs : List (Str × Dict)) :
    popAll (.mk none cs) = .ok (cs, dEmpty) := by
  rw [popAll]
  exact popAllF_mk_none cs

theorem buildD_aux : ∀ (kvs : List (Str × CValue)) (acc : List (Str × Dict)),
    (acc.map Prod.fst ++ kvs.map Prod.fst).Nodup →
    kvs.foldlM (fun d e => insertOp d e.1 e.2) (Dict.mk none acc) =
      .ok (.mk none (acc ++ kvs.map fun e => (e.1, Dict.mk (some e.2) []))) := by
  intro kvs
  induction kvs with
  | nil =>
    intro acc hnd
    simp only [List.map_nil, List.append_nil]
    rfl
  | cons e rest ih =>
    intro acc hnd
    obtain ⟨k, v⟩ := e
    have hknotacc : k ∉ acc.map Prod.fst := by
      intro hk
      have := (List.nodup_append.mp hnd).2.2
      exact this hk (by simp)
    have hfresh : findChild (.mk none acc) k = none :=
      findChild_none_of_not_mem acc k hknotacc
    have hins : insertOp (.mk none acc) k v =
        .ok (.mk none (acc ++ [(k, .mk (some v) [])])) := by
      rw [insertOp, if_neg (by simp [Dict.is_value, Dict.val]), hfresh]
      rfl
    rw [List.foldlM_cons, hins, okBind]
    have hnd2 : ((acc ++ [(k, Dict.mk (some v) [])]).map Prod.fst ++
        rest.map Prod.fst).Nodup := by
      have heq : ((acc ++ [(k, Dict.mk (some v) [])]).map Prod.fst ++
          rest.map Prod.fst) = acc.map Prod.fst ++ k :: rest.map Prod.fst := by
        simp
      rw [heq]
      simpa using hnd
    have := ih (acc ++ [(k, .mk (some v) [])]) hnd2
    rw [this]
    simp

theorem buildD_distinct (kvs : List (Str × CValue))
    (hnd : (kvs.map Prod.fst).Nodup) :
    buildD kvs = .ok (.mk none (kvs.map fun e => (e.1, Dict.mk (some e.2) []))) := by
  rw [buildD]
  have := buildD_aux kvs [] (by simpa using hnd)
  simpa using this

/-- C9: `Dictionary::update` unconditionally throws `PalimpsestError` with the
message "Dictionary::update is not implemented yet", for every pair of
dictionaries; the advertised dictionary-to-dictionary merge is never
performed, and the exception leaves the callee unchanged. -/
theorem c9_update_always_throws (d other : Dict) :
    update d other =
      .error (.palimpsestError "Dictionary::update is not implemented yet") := rfl

/-- C5: merging a buffer that fails MessagePack parsing raises no error to the
caller: `mpack_tree_parse` reports the failure, `Dictionary::deserialize` logs
it and returns, and the target dictionary is exactly unchanged. -/
theorem c5_parse_error_noop (d : Dict) (data : List Nat)
    (h : parseBytes data = none) : deserializeBytes d data = .ok d := by
  rw [deserializeBytes, h]

/-- C5 witness: the single reserved byte `0xc1` is malformed; merging it into
a fresh dictionary returns it unchanged. -/
theorem c5_witness :
    parseBytes [193] = none ∧ deserializeBytes dEmpty [193] = .ok dEmpty :=
  ⟨rfl, c5_parse_error_noop dEmpty [193] rfl⟩

/-- C3: for every dictionary whose maps carry the key uniqueness the C++
`unordered_map` guarantees, `difference` of the dictionary with itself is an
empty dictionary — whether the tree is empty, a value, or a nested map. -/
theorem c3_difference_self_empty (T : Dict) (h : uniqKeys T = true) :
    difference T T = .ok dEmpty :=
  difference_self_aux (sizeOf T) T le_rfl h

/-- C3 witness: a two-entry map (one value child, one empty-map child) differs
from itself by the empty dictionary. -/
theorem c3_witness :
    uniqKeys (Dict.mk none
      [([97], Dict.mk (some (.vi32 1)) []), ([98], Dict.mk none [])]) = true ∧
    difference
      (Dict.mk none [([97], Dict.mk (some (.vi32 1)) []), ([98], Dict.mk none [])])
      (Dict.mk none [([97], Dict.mk (some (.vi32 1)) []), ([98], Dict.mk none [])]) =
      .ok dEmpty := by
  have h : uniqKeys (Dict.mk none
      [([97], Dict.mk (some (CValue.vi32 1)) []), ([98], Dict.mk none [])]) = true := by
    simp [uniqKeys, uniqChildren]
  exact ⟨h, c3_difference_self_empty _ h⟩

/-- C10: the exclusivity invariant — whenever a node's value slot is set its
key map is empty, at every reachable node — holds of a fresh dictionary, makes
`is_value` and `is_map` mutually exclusive and exhaustive on every node, and
is preserved by key access (`operator()`), insertion (`insert`), assignment
(`operator=`), removal (`remove`), `clear`, and merge (`deserialize`), both
node-wise and from raw bytes. -/
theorem c10_invariant_preserved (d d2 : Dict) (k : Str) (v : CValue)
    (w : WireNode) (bs : List Nat) (hinv : inv d = true) :
    (d.is_value = !d.is_map) ∧
    (opParen d k = .ok d2 → inv d2 = true) ∧
    (insertOp d k v = .ok d2 → inv d2 = true) ∧
    (assignOp d v = .ok d2 → inv d2 = true) ∧
    inv (removeOp d k) = true ∧
    inv (clearOp d) = true ∧
    (deserializeNode d w = .ok d2 → inv d2 = true) ∧
    (deserializeBytes d bs = .ok d2 → inv d2 = true) := by
  refine ⟨?_, fun h => inv_opParen hinv h, fun h => inv_insertOp hinv h,
    fun h => inv_assignOp hinv h, inv_removeOp hinv, inv_clearOp,
    fun h => inv_deserializeNode hinv h, fun h => inv_deserializeBytes hinv h⟩
  obtain ⟨dv, cs⟩ := d
  cases dv <;> rfl

/-- C10 witness: instantiated at a fresh dictionary, a one-byte key, a boolean
value, the nil wire node and the empty buffer. -/
theorem c10_witness :
    (dEmpty.is_value = !dEmpty.is_map) ∧
    (opParen dEmpty [97] = .ok dEmpty → inv dEmpty = true) ∧
    (insertOp dEmpty [97] (.vbool true) = .ok dEmpty → inv dEmpty = true) ∧
    (assignOp dEmpty (.vbool true) = .ok dEmpty → inv dEmpty = true) ∧
    inv (removeOp dEmpty [97]) = true ∧
    inv (clearOp dEmpty) = true ∧
    (deserializeNode dEmpty .nil = .ok dEmpty → inv dEmpty = true) ∧
    (deserializeBytes dEmpty [] = .ok dEmpty → inv dEmpty = true) :=
  c10_invariant_preserved dEmpty dEmpty [97] (.vbool true) .nil []
    (inv_of_mk_nil none)

/-- C8: building a dictionary by `insert`ing distinct keys and then calling
`popitem` until it is empty pops every inserted key exactly once, paired with
the value node assigned to it, and leaves an empty dictionary of size 0;
`popitem` of an empty dictionary fails with `KeyError` and `popitem` of a
value node with `TypeError`. The `popitem` body is not among the sources; it
is modelled from the spec. -/
theorem c8_popitem_exhausts (kvs : List (Str × CValue)) (v : CValue)
    (cs : List (Str × Dict)) (hnd : (kvs.map Prod.fst).Nodup) :
    (∃ d : Dict, buildD kvs = .ok d ∧
      popAll d = .ok (kvs.map fun e => (e.1, Dict.mk (some e.2) []), dEmpty) ∧
      dEmpty.is_empty = true ∧ dEmpty.size = 0) ∧
    popitem dEmpty = .error .keyError ∧
    popitem (.mk (some v) cs) = .error .typeError := by
  refine ⟨⟨.mk none (kvs.map fun e => (e.1, Dict.mk (some e.2) [])),
    buildD_distinct kvs hnd, popAll_mk_none _, rfl, rfl⟩, rfl, ?_⟩
  rw [popitem, if_pos (show (Dict.mk (some v) cs).is_value = true from rfl)]

/-- C8 witness: two distinct keys with a boolean and an integer value. -/
theorem c8_witness :
    (([([97], CValue.vbool true), ([98], CValue.vi32 2)].map Prod.fst).Nodup) ∧
    ((∃ d : Dict, buildD [([97], CValue.vbool true), ([98], CValue.vi32 2)] = .ok d ∧
      popAll d = .ok ([([97], CValue.vbool true), ([98], CValue.vi32 2)].map
        fun e => (e.1, Dict.mk (some e.2) []), dEmpty) ∧
      dEmpty.is_empty = true ∧ dEmpty.size = 0) ∧
    popitem dEmpty = .error .keyError ∧
    popitem (.mk (some (.vf64 0)) []) = .error .typeError) :=
  ⟨by decide, c8_popitem_exhausts [([97], CValue.vbool true), ([98], CValue.vi32 2)]
    (.vf64 0) [] (by decide)⟩

/-- C6: amended — integer type inference ignores the wire width: a signed wire
integer of any encoded width (8, 16, 32 or 64 bits) installed at a fresh key
is stored as a native `int` through `mpack_node_int` (32-bit, with its
fits-check), and an unsigned wire integer of any width as a native `unsigned`
through `mpack_node_uint`; no 8-, 16- or 64-bit storage type is ever
inferred. -/
theorem c6_int_inference_amended (k : Str) (i : Int) (u : Nat) :
    insertAtKey dEmpty k (.int i) =
      .ok (.mk none [(k, .mk (some (.vi32 (nodeIntNative (.int i)))) [])]) ∧
    insertAtKey dEmpty k (.uint u) =
      .ok (.mk none [(k, .mk (some (.vu32 (nodeUintNative (.uint u)))) [])]) := by
  constructor
  · rw [insertAtKey.eq_def]
    rfl
  · rw [insertAtKey.eq_def]
    rfl

/-- C6: counterexample to width-preserving inference — the buffer
`81 a1 61 d3 ff ff ff ff ff ff ff fb` encodes `{"a": -5}` with an explicit
64-bit signed wire integer (`0xd3`), yet the merged dictionary stores a
native 32-bit `int`, not a 64-bit signed integer. -/
theorem c6_width_counterexample :
    deserializeBytes dEmpty
        [129, 161, 97, 211, 255, 255, 255, 255, 255, 255, 255, 251] =
      .ok (.mk none [([97], .mk (some (.vi32 (-5))) [])]) ∧
    deserializeBytes dEmpty
        [129, 161, 97, 211, 255, 255, 255, 255, 255, 255, 255, 251] ≠
      .ok (.mk none [([97], .mk (some (.vi64 (-5))) [])]) := by
  have h1 : insertAtKey dEmpty [97] (.int (-5)) =
      .ok (.mk none [([97], .mk (some (.vi32 (-5))) [])]) := by
    rw [insertAtKey.eq_def]
    rfl
  have h2 : deserializeEntries (.mk none [([97], .mk (some (.vi32 (-5))) [])]) [] =
      .ok (.mk none [([97], .mk (some (.vi32 (-5))) [])]) := by
    rw [deserializeEntries.eq_def]
  have hmain : deserializeBytes dEmpty
      [129, 161, 97, 211, 255, 255, 255, 255, 255, 255, 255, 251] =
      .ok (.mk none [([97], .mk (some (.vi32 (-5))) [])]) := by
    show deserializeNode dEmpty (.map [(.str [97], .int (-5))]) = _
    rw [deserializeNode.eq_def]
    show deserializeEntries dEmpty [(.str [97], .int (-5))] = _
    rw [deserializeEntries.eq_def]
    show (do
      let d3 ← insertAtKey dEmpty [97] (.int (-5))
      deserializeEntries d3 []) = _
    rw [h1, okBind, h2]
  refine ⟨hmain, ?_⟩
  rw [hmain]
  intro h
  simp at h

/-- C7: amended — only arrays whose first element is a double are inferred as
Eigen types: a 4-element double array becomes an `Eigen::Quaterniond` with
its coefficients in wire order (w, x, y, z), and a 9-element double array an
`Eigen::Matrix3d` in row-major order, entry (i, j) from array index
`3 * i + j` (the `mat3Entry` accessor); integer arrays are never inferred. -/
theorem c7_quat_mat_inference_amended (k : Str)
    (q0 q1 q2 q3 e0 e1 e2 e3 e4 e5 e6 e7 e8 : Nat) :
    insertAtKey dEmpty k (.arr [.double q0, .double q1, .double q2, .double q3]) =
      .ok (.mk none [(k, .mk (some (.quat q0 q1 q2 q3)) [])]) ∧
    insertAtKey dEmpty k (.arr [.double e0, .double e1, .double e2, .double e3,
        .double e4, .double e5, .double e6, .double e7, .double e8]) =
      .ok (.mk none
        [(k, .mk (some (.mat3 [e0, e1, e2, e3, e4, e5, e6, e7, e8])) [])]) := by
  constructor
  · rw [insertAtKey.eq_def]
    rfl
  · rw [insertAtKey.eq_def]
    rfl

/-- C7: counterexample — a 4-element numeric wire array whose elements are
integers is not inferred as a quaternion: `insert_at_key_` requires the first
element to be of double type and raises `TypeError` instead. -/
theorem c7_numeric_array_counterexample :
    insertAtKey dEmpty [97] (.arr [.uint 1, .uint 2, .uint 3, .uint 4]) =
      .error .typeError := by
  rw [insertAtKey.eq_def]
  rfl

/-- C1: corrected — kind conflicts during merge are type errors, not
structural overwrites: merging a scalar or array wire payload into a map node
raises `TypeError` (from `deserialize_`, "Expecting a map"), and merging a
wire map into a value node raises `TypeError` from the typed
`mpack::read<T>`; in neither direction is the existing subtree replaced. -/
theorem c1_kind_conflict_raises_type_error (d dv : Dict) (w : WireNode)
    (v : CValue) (entries : List (WireNode × WireNode)) (hd : d.val = none)
    (hm : isWireMap w = false) (hn : w ≠ .nil) (hv : dv.val = some v) :
    deserializeNode d w = .error .typeError ∧
    deserializeNode dv (.map entries) = .error .typeError :=
  ⟨deserializeNode_kind_conflict_scalar d w hd hm hn,
   deserializeNode_kind_conflict_map dv v entries hv⟩

/-- C1 witness: a wire integer into a fresh map, and a one-entry wire map into
a boolean value node. -/
theorem c1_witness :
    dEmpty.val = none ∧ isWireMap (.int 1) = false ∧ WireNode.int 1 ≠ .nil ∧
    (Dict.mk (some (.vbool true)) []).val = some (.vbool true) ∧
    (deserializeNode dEmpty (.int 1) = .error .typeError ∧
     deserializeNode (Dict.mk (some (.vbool true)) []) (.map [(.str [97], .nil)]) =
       .error .typeError) :=
  ⟨rfl, rfl, fun h => WireNode.noConfusion h, rfl,
   c1_kind_conflict_raises_type_error dEmpty (Dict.mk (some (.vbool true)) [])
     (.int 1) (.vbool true) [(.str [97], .nil)] rfl rfl
     (fun h => WireNode.noConfusion h) rfl⟩

/-- C1: counterexample to the claimed structural overwrite — a value node
receiving a wire map is a `TypeError`; the subtree is not replaced by a map. -/
theorem c1_kind_conflict_counterexample :
    deserializeNode (Dict.mk (some (.vbool true)) []) (.map [(.str [97], .nil)]) =
      .error .typeError := by
  rw [deserializeNode.eq_def]
  rfl

/-- C4: amended — when the target node is an already-typed value, the payload
is decoded into the slot through the stored type's `mpack::read`
specialization, and an incompatible wire shape fails with `TypeError`; however
the fixed-size Eigen reads check the element count only with a compiled-out
`assert`, so a 3-element double array arriving for a `Vector2d` slot is
accepted, reading the first two elements, rather than failing. -/
theorem c4_value_merge_amended (d : Dict) (v v2 : CValue) (w : WireNode)
    (e : Err) (a b x y z : Nat) (hd : d.val = some v) (hw : w ≠ .nil) :
    (readValue v w = .ok v2 →
      deserializeNode d w = .ok (.mk (some v2) d.children)) ∧
    (readValue v w = .error e → deserializeNode d w = .error e) ∧
    readValue (.vec2 a b) (.arr [.double x, .double y, .double z]) =
      .ok (.vec2 x y) := by
  refine ⟨fun hr => ?_, fun hr => ?_, rfl⟩
  · rw [deserializeNode_val_eq d v w hd hw, hr, okBind]
  · rw [deserializeNode_val_eq d v w hd hw, hr, errBind]

/-- C4 witness: a boolean slot decoding a boolean payload, and a 2-vector slot
with a 3-element double array. -/
theorem c4_witness :
    (Dict.mk (some (.vbool true)) []).val = some (.vbool true) ∧
    WireNode.bool false ≠ .nil ∧
    ((readValue (.vbool true) (.bool false) = .ok (.vbool false) →
      deserializeNode (Dict.mk (some (.vbool true)) []) (.bool false) =
        .ok (.mk (some (.vbool false)) (Dict.mk (some (.vbool true)) []).children)) ∧
     (readValue (.vbool true) (.bool false) = .error .typeError →
      deserializeNode (Dict.mk (some (.vbool true)) []) (.bool false) =
        .error .typeError) ∧
     readValue (.vec2 1 2) (.arr [.double 3, .double 4, .double 5]) =
       .ok (.vec2 3 4)) :=
  ⟨rfl, fun h => WireNode.noConfusion h,
   c4_value_merge_amended (Dict.mk (some (.vbool true)) []) (.vbool true)
     (.vbool false) (.bool false) .typeError 1 2 3 4 5 rfl
     (fun h => WireNode.noConfusion h)⟩

/-- C4: counterexample — a 3-element double array merged into a `Vector2d`
slot succeeds (the element count is only an `assert`, compiled out in
release), reading the first two elements, instead of failing with a type
mismatch. -/
theorem c4_length_mismatch_counterexample :
    deserializeNode (Dict.mk (some (.vec2 1 2)) [])
        (.arr [.double 3, .double 4, .double 5]) =
      .ok (Dict.mk (some (.vec2 3 4)) []) := by
  rw [deserializeNode.eq_def]
  rfl

/-- C2: amended — the serialize/deserialize round trip reproduces the tree
only for map-rooted, round-trip-safe dictionaries: for those, merging the
serialized bytes into a fresh dictionary succeeds and yields a tree with the
same shape and a byte-for-byte equal serialization. (Stored concrete types
are not always preserved — integer values are re-inferred as native
`int`/`unsigned` — and value-rooted trees do not round trip at all.) -/
theorem c2_roundtrip_amended (T : Dict) (hsafe : rtSafe T = true)
    (hmap : T.val = none) :
    ∃ T2 : Dict, deserializeBytes dEmpty (serialize T) = .ok T2 ∧
      serialize T2 = serialize T ∧ sameShape T2 T = true :=
  deserialize_serialize T hsafe hmap

/-- C2 witness: a one-entry map holding an unsigned integer value. -/
theorem c2_witness :
    rtSafe (Dict.mk none [([97], Dict.mk (some (.vu32 5)) [])]) = true ∧
    (Dict.mk none [([97], Dict.mk (some (.vu32 5)) [])]).val = none ∧
    ∃ T2 : Dict,
      deserializeBytes dEmpty
          (serialize (Dict.mk none [([97], Dict.mk (some (.vu32 5)) [])])) =
        .ok T2 ∧
      serialize T2 =
        serialize (Dict.mk none [([97], Dict.mk (some (.vu32 5)) [])]) ∧
      sameShape T2 (Dict.mk none [([97], Dict.mk (some (.vu32 5)) [])]) = true := by
  have hs : rtSafe (Dict.mk none [([97], Dict.mk (some (CValue.vu32 5)) [])]) =
      true := by
    rw [rtSafe, rtSafeChildren, rtSafe, rtSafeChildren, rtSafeValue]
    simp
  exact ⟨hs, rfl, c2_roundtrip_amended _ hs rfl⟩

/-- C2: counterexample — a tree rooted at a value (here the boolean `true`)
serializes to a scalar payload, and merging those bytes back into a fresh
(map-rooted) dictionary raises `TypeError` ("Expecting a map") instead of
reproducing the tree. -/
theorem c2_roundtrip_counterexample :
    deserializeBytes dEmpty (serialize (Dict.mk (some (.vbool true)) [])) =
      .error .typeError := by
  have hs : serialize (Dict.mk (some (CValue.vbool true)) []) = [195] := rfl
  rw [hs]
  show deserializeNode dEmpty (.bool true) = Except.error Err.typeError
  exact deserializeNode_kind_conflict_scalar dEmpty (.bool true) rfl rfl
    (fun h => WireNode.noConfusion h)

end Palimpsest
